import Mathlib

/-!
Shallow embedding of the temporal arranger skill (song-structure analysis and
prompt-driven rearrangement).  Python floats are modelled as exact rationals,
Python `round(x, n)` as round-half-to-even at `n` decimal places, and `int(x)`
as truncation toward zero.  The librosa/scipy feature extraction (chroma,
mfcc, novelty curve, peak picking, beat tracking), numpy's floating-point
square root, and the playback-engine adapter are external collaborators;
their outputs (boundary candidate times, beat grid, RMS curve, sample rate,
sample count) are parameters of the embedded functions.
-/

namespace Waive

/-- Decidable equality for `Except`, used to evaluate embedded functions that
model raised exceptions at concrete inputs. -/
instance {ε α : Type} [DecidableEq ε] [DecidableEq α] : DecidableEq (Except ε α) := fun x y =>
  match x, y with
  | .ok a, .ok b =>
      if h : a = b then .isTrue (by rw [h]) else .isFalse (by simp [h])
  | .error a, .error b =>
      if h : a = b then .isTrue (by rw [h]) else .isFalse (by simp [h])
  | .ok _, .error _ => .isFalse (by simp)
  | .error _, .ok _ => .isFalse (by simp)

/-- Truncation toward zero, the behaviour of Python `int()` on a float. -/
def pyInt (q : ℚ) : ℤ := if 0 ≤ q then ⌊q⌋ else -⌊-q⌋

/-- Round half to even (Python `round`) to an integer. -/
def pyRound (q : ℚ) : ℤ :=
  let f := ⌊q⌋
  let r := q - (f : ℚ)
  if r < 1/2 then f
  else if 1/2 < r then f + 1
  else if f % 2 = 0 then f else f + 1

/-- Python `round(q, 3)`. -/
def round3 (q : ℚ) : ℚ := (pyRound (q * 1000) : ℚ) / 1000

/-- Python `round(q, 2)`. -/
def round2 (q : ℚ) : ℚ := (pyRound (q * 100) : ℚ) / 100

/-- Python `round(q, 4)`. -/
def round4 (q : ℚ) : ℚ := (pyRound (q * 10000) : ℚ) / 10000

/-- ASCII lower-casing of one character (Python `str.lower` on ASCII text). -/
def asciiLower (c : Char) : Char :=
  if 'A' ≤ c ∧ c ≤ 'Z' then Char.ofNat (c.toNat + 32) else c

/-- Python `str.lower()`. -/
def pyLower (s : String) : String := ⟨s.data.map asciiLower⟩

/-- Python whitespace (the class `\s`). -/
def isPySpace (c : Char) : Bool :=
  c = ' ' || c = '\t' || c = '\n' || c = '\r' || c = '\x0b' || c = '\x0c'

/-- Python `str.strip()`. -/
def pyStrip (s : String) : String :=
  ⟨((s.data.dropWhile isPySpace).reverse.dropWhile isPySpace).reverse⟩

/-- Python `needle in hay` on strings. -/
def pyContains (hay needle : String) : Bool := decide (needle.data <:+: hay.data)

/-- Python `s.startswith(p)`. -/
def pyStartsWith (s p : String) : Bool := p.data.isPrefixOf s.data

/-- A detected song section (the `Section` dataclass): a labelled span of the
track with a confidence and a relative energy. -/
structure Section where
  label : String
  start_time : ℚ
  end_time : ℚ
  confidence : ℚ
  energy : ℚ
deriving DecidableEq, Repr

/-- The `Section.duration` property. -/
def Section.duration (s : Section) : ℚ := s.end_time - s.start_time

/-- The `Arrangement` dataclass: the complete structure analysis of a track. -/
structure Arrangement where
  bpm : ℚ
  total_duration : ℚ
  sections : List Section
  beat_times : List ℚ
deriving DecidableEq, Repr

/-- `_find_section`: exact case-insensitive label match first, then first
section whose label contains the requested name as a substring or vice
versa. -/
def findSection (name : String) (sections : List Section) : Option Section :=
  let n := pyLower (pyStrip name)
  match sections.find? (fun s => pyLower s.label == n) with
  | some s => some s
  | none =>
      sections.find? (fun s =>
        pyContains (pyLower s.label) n || pyContains n (pyLower s.label))

/-- The structured operation dict produced by `_parse_prompt` (field names
follow the dict keys; `unknown` carries the raw prompt verbatim). -/
inductive Operation where
  | duplicate (target_section : String) (times : ℕ)
  | remove (target_section : String)
  | swap (section_a section_b : String)
  | extend (target_section : String) (bars : ℕ)
  | unknown (raw_prompt : String)
deriving DecidableEq, Repr

/-- The edit part of `_execute_operation`, before `_recalculate_timeline` is
applied at the end; `Except.error` models the `ValueError`s raised on
unresolved targets.  In the `swap` branch, `sections[idx_b]` is the value
`sb` returned by `_find_section` (and likewise `sections[idx_a]` is `sa`),
because `list.index` locates the first element equal to that value. -/
def executeCore (arrangement : Arrangement) (operation : Operation) :
    Except String (List Section) :=
  let sections := arrangement.sections
  match operation with
  | .duplicate target _times =>
      match findSection target sections with
      | none => .error (("Section not found: ") ++ target)
      | some target' =>
          let idx := sections.indexOf target'
          let dup : Section :=
            { label := target'.label ++ "_copy", start_time := target'.start_time,
              end_time := target'.end_time, confidence := target'.confidence,
              energy := target'.energy }
          .ok (sections.insertIdx (idx + 1) dup)
  | .remove target =>
      match findSection target sections with
      | none => .error (("Section not found: ") ++ target)
      | some target' => .ok (sections.erase target')
  | .swap a b =>
      match findSection a sections, findSection b sections with
      | some sa, some sb =>
          let idx_a := sections.indexOf sa
          let idx_b := sections.indexOf sb
          .ok ((sections.set idx_a sb).set idx_b sa)
      | _, _ => .error ("One or both sections not found for swap.")
  | .extend target bars =>
      match findSection target sections with
      | none => .error (("Section not found: ") ++ target)
      | some target' =>
          let bar_duration := 60 / arrangement.bpm * 4
          let extension := (bars : ℚ) * bar_duration
          let idx := sections.indexOf target'
          .ok (sections.set idx { target' with end_time := target'.end_time + extension })
  | .unknown _ => .ok sections

/-- Helper of `_recalculate_timeline`: walk the list accumulating the
(unrounded) current time, rewriting each section's times to the rounded
running total. -/
def recalcGo (t : ℚ) : List Section → List Section
  | [] => []
  | s :: rest =>
      { s with start_time := round3 t, end_time := round3 (t + s.duration) } ::
        recalcGo (t + s.duration) rest

/-- `_recalculate_timeline`: start/end times are rewritten by summing
durations in order starting from 0, rounding each to 3 decimals. -/
def recalculateTimeline (sections : List Section) : List Section :=
  recalcGo 0 sections

/-- `_execute_operation`: apply the requested edit, then recompute the
timeline positions of the resulting section list. -/
def executeOperation (arrangement : Arrangement) (operation : Operation) :
    Except String (List Section) :=
  (executeCore arrangement operation).map recalculateTimeline

/-- One entry of `inserted_clips` in `_insert_arrangement`: the temp WAV file
written for the clip is identified here by the half-open sample range
`[src_start_sample, src_end_sample)` it slices from the original audio (the
short edge fades applied inside the slice do not change which samples are
referenced, so they are not modelled). -/
structure Clip where
  label : String
  src_start_sample : ℤ
  src_end_sample : ℤ
  timeline_position : ℚ
  duration : ℚ
deriving DecidableEq, Repr, Inhabited

/-- The per-section loop of `_insert_arrangement`: convert each section's
times to sample indices in the original buffer, clamp, skip empty ranges, and
otherwise emit a clip at the running timeline offset and advance that offset
by the section's duration.  The engine adapter (`add_track` /
`insert_audio_clip`) is an external collaborator modelled as always
acknowledging `ok`. -/
def insertGo (sr : ℕ) (total_samples : ℤ) : List Section → ℚ → List Clip × ℚ
  | [], timeline_offset => ([], timeline_offset)
  | s :: rest, timeline_offset =>
      let start_sample := max 0 (min (pyInt (s.start_time * sr)) total_samples)
      let end_sample := max start_sample (min (pyInt (s.end_time * sr)) total_samples)
      if start_sample ≥ end_sample then insertGo sr total_samples rest timeline_offset
      else
        let clip : Clip :=
          { label := s.label, src_start_sample := start_sample,
            src_end_sample := end_sample, timeline_position := timeline_offset,
            duration := s.duration }
        let (clips, final_offset) := insertGo sr total_samples rest (timeline_offset + s.duration)
        (clip :: clips, final_offset)

/-- `_insert_arrangement`, returning the inserted clips and the final value
of `timeline_offset` (so `total_duration` of the returned track info is the
final offset minus `start_time`).  `sr` and `total_samples` describe the
source audio loaded at native sample rate. -/
def insertArrangement (sections : List Section) (start_time : ℚ)
    (sr : ℕ) (total_samples : ℤ) : List Clip × ℚ :=
  insertGo sr total_samples sections start_time

/-- The character class `\w` (prompts are ASCII, already lower-cased when
matched). -/
def isWordChar (c : Char) : Bool := c.isAlphanum || c = '_'

/-- The character class `\d`. -/
def isDigitChar (c : Char) : Bool := c.isDigit

/-- A tiny regex AST covering exactly the constructs of the four prompt
templates of `_parse_prompt`: literals, literal alternation, greedy `+` and
`*` over a character class, greedy optional groups, and the two boundaries of
a numbered capture group. -/
inductive Re where
  | lit (s : List Char)
  | alt (xs : List (List Char))
  | plus (p : Char → Bool)
  | star (p : Char → Bool)
  | opt (ps : List Re)
  | openg (i : ℕ)
  | closeg (i : ℕ)

/-- Backtracking matcher with Python `re.match` semantics: anchored at the
start of the input, an unconsumed suffix is allowed, quantifiers are greedy,
and alternation, quantifiers and optional groups backtrack.  Group events
record the input suffix at each group boundary.  `fuel` only bounds the
recursion depth; each step consumes one unit, and the depth needed is at most
the total pattern size (`opt` bodies included), so any larger fuel gives the
match semantics. -/
def matchRe (fuel : ℕ) (ps : List Re) (input : List Char) :
    Option (List (ℕ × List Char)) :=
  match fuel with
  | 0 => none
  | fuel + 1 =>
    match ps with
    | [] => some []
    | .lit s :: rest =>
        if s.isPrefixOf input then matchRe fuel rest (input.drop s.length) else none
    | .alt xs :: rest =>
        xs.findSome? (fun x =>
          if x.isPrefixOf input then matchRe fuel rest (input.drop x.length) else none)
    | .plus p :: rest =>
        let m := (input.takeWhile p).length
        (List.range (m + 1)).findSome? (fun j =>
          if m - j = 0 then none else matchRe fuel rest (input.drop (m - j)))
    | .star p :: rest =>
        let m := (input.takeWhile p).length
        (List.range (m + 1)).findSome? (fun j => matchRe fuel rest (input.drop (m - j)))
    | .opt qs :: rest =>
        (matchRe fuel (qs ++ rest) input).orElse (fun _ => matchRe fuel rest input)
    | .openg i :: rest => (matchRe fuel rest input).map (fun evs => (i, input) :: evs)
    | .closeg i :: rest => (matchRe fuel rest input).map (fun evs => (i, input) :: evs)

/-- Fuel used for every template match; the four templates have total size
far below this bound for any input. -/
def reFuel : ℕ := 1000

/-- Captured text of group `i`: the characters between its open and close
events. -/
def groupStr (evs : List (ℕ × List Char)) (i : ℕ) : String :=
  match evs.filter (fun e => e.1 == i) with
  | [(_, o), (_, c)] => ⟨o.take (o.length - c.length)⟩
  | _ => ""

/-- `(\w+(?:\s*\d*)?)` captured as group `i`. -/
def targetRe (i : ℕ) : List Re :=
  [.openg i, .plus isWordChar, .opt [.star isPySpace, .star isDigitChar], .closeg i]

/-- `(?:the\s+)?` -/
def theRe : List Re := [.opt [.lit ("the".data), .plus isPySpace]]

/-- `(double|repeat|duplicate)\s+(?:the\s+)?(\w+(?:\s*\d*)?)`; the keyword
group is group 1 in the source regex but is never read, so it is left
uncaptured here. -/
def duplicateRe : List Re :=
  [.alt [("double".data), ("repeat".data), ("duplicate".data)], .plus isPySpace] ++
    theRe ++ targetRe 2

/-- `(remove|delete|cut)\s+(?:the\s+)?(\w+(?:\s*\d*)?)` -/
def removeRe : List Re :=
  [.alt [("remove".data), ("delete".data), ("cut".data)], .plus isPySpace] ++
    theRe ++ targetRe 2

/-- `swap\s+(?:the\s+)?(\w+(?:\s*\d*)?)\s+and\s+(?:the\s+)?(\w+(?:\s*\d*)?)` -/
def swapRe : List Re :=
  [.lit ("swap".data), .plus isPySpace] ++ theRe ++ targetRe 1 ++
    [.plus isPySpace, .lit ("and".data), .plus isPySpace] ++ theRe ++ targetRe 2

/-- `extend\s+(?:the\s+)?(\w+(?:\s*\d*)?)\s+by\s+(\d+)\s+bars?` -/
def extendRe : List Re :=
  [.lit ("extend".data), .plus isPySpace] ++ theRe ++ targetRe 1 ++
    [.plus isPySpace, .lit ("by".data), .plus isPySpace,
     .openg 2, .plus isDigitChar, .closeg 2,
     .plus isPySpace, .lit ("bar".data), .opt [.lit ("s".data)]]

/-- Decimal parsing of a digit string (`int(match.group(...))`). -/
def pyParseNat (s : String) : ℕ :=
  s.data.foldl (fun n c => n * 10 + (c.toNat - 48)) 0

/-- `target.label if target else match.group(k)`. -/
def labelOr : Option Section → String → String
  | some s, _ => s.label
  | none, raw => raw

/-- `_parse_prompt`: lower-case and strip the prompt, try the four templates
in priority order, resolving captured names against the current sections; on
no match return `unknown` carrying the original prompt verbatim. -/
def parsePrompt (prompt : String) (arrangement : Arrangement) : Operation :=
  let prompt_lower := pyStrip (pyLower prompt)
  let sections := arrangement.sections
  match matchRe reFuel duplicateRe prompt_lower.data with
  | some evs =>
      .duplicate (labelOr (findSection (groupStr evs 2) sections) (groupStr evs 2)) 2
  | none =>
  match matchRe reFuel removeRe prompt_lower.data with
  | some evs =>
      .remove (labelOr (findSection (groupStr evs 2) sections) (groupStr evs 2))
  | none =>
  match matchRe reFuel swapRe prompt_lower.data with
  | some evs =>
      .swap (labelOr (findSection (groupStr evs 1) sections) (groupStr evs 1))
            (labelOr (findSection (groupStr evs 2) sections) (groupStr evs 2))
  | none =>
  match matchRe reFuel extendRe prompt_lower.data with
  | some evs =>
      .extend (labelOr (findSection (groupStr evs 1) sections) (groupStr evs 1))
              (pyParseNat (groupStr evs 2))
  | none => .unknown prompt

/-- Python `min(beat_times, key=lambda bt: abs(bt - b))`: Python `min` keeps
the earliest element attaining the minimum key.  Only called on a nonempty
list; `0` is a dummy for `[]`. -/
def nearestBeat (b : ℚ) : List ℚ → ℚ
  | [] => 0
  | bt :: rest => rest.foldl (fun best x => if |x - b| < |best - b| then x else best) bt

/-- The boundary list of `_detect_sections`:
`[0.0] + sorted(boundary_times) + [duration]`, then (when a beat grid is
present) snapping of the interior boundaries to the nearest beat with
first-occurrence deduplication, and finally `sorted(set(...))` — modelled as
`dedup` followed by `mergeSort`, which is exactly the ascending list of the
distinct values. -/
def finalBoundaries (boundary_times beat_times : List ℚ) (duration : ℚ) : List ℚ :=
  let boundaries := [0] ++ boundary_times.mergeSort (fun a b => a ≤ b) ++ [duration]
  if beat_times.isEmpty then boundaries
  else
    let snapped := ((boundaries.drop 1).dropLast).foldl (fun acc b =>
      let nearest := nearestBeat b beat_times
      if nearest ∈ acc then acc else acc ++ [nearest]) [0]
    ((snapped ++ [duration]).dedup).mergeSort (fun a b => a ≤ b)

/-- `librosa.time_to_frames(t, sr=sr)` with the default hop length 512:
the floor of `t * sr / 512`. -/
def timeToFrames (sr : ℕ) (t : ℚ) : ℤ := ⌊t * sr / 512⌋

/-- Python `xs[a:b]` for `0 ≤ a` (the only case reached here: segment start
frames are nonnegative because boundaries are nonnegative). -/
def pySlice (xs : List ℚ) (a b : ℤ) : List ℚ := (xs.take b.toNat).drop a.toNat

/-- `np.mean`. -/
def meanQ (xs : List ℚ) : ℚ := xs.sum / xs.length

/-- Per-segment energy: `np.mean(rms[start_frame:end_frame])` with
`end_frame = min(end_frame, len(rms) - 1)`, and `0.0` for an empty range. -/
def segmentEnergy (rms : List ℚ) (sr : ℕ) (s e : ℚ) : ℚ :=
  let start_frame := timeToFrames sr s
  let end_frame := min (timeToFrames sr e) ((rms.length : ℤ) - 1)
  if start_frame < end_frame then meanQ (pySlice rms start_frame end_frame) else 0

/-- `np.median`: middle element of the sorted data, or the mean of the two
middle elements for even length. -/
def medianQ (xs : List ℚ) : ℚ :=
  let sorted := xs.mergeSort (fun a b => a ≤ b)
  let n := xs.length
  if n = 0 then 0
  else if n % 2 = 1 then sorted.getD (n / 2) 0
  else (sorted.getD (n / 2 - 1) 0 + sorted.getD (n / 2) 0) / 2

/-- The square of `np.std` (population variance); `np.std` itself is the
floating-point square root of this, supplied as the oracle `sqrtQ`. -/
def varQ (xs : List ℚ) : ℚ := meanQ (xs.map (fun x => (x - meanQ xs) ^ 2))

/-- Decimal digit string of a natural number (the f-string formatting of the
duplicate-label counter). -/
def natDigits (n : ℕ) : List Char :=
  if h : n < 10 then [Char.ofNat (48 + n)]
  else natDigits (n / 10) ++ [Char.ofNat (48 + n % 10)]
decreasing_by exact Nat.div_lt_self (by omega) (by omega)

/-- Decimal representation of a natural number as a string. -/
def natRepr (n : ℕ) : String := ⟨natDigits n⟩

/-- The heuristic label rule: `intro`/`outro` for short edge spans, then
`chorus`/`bridge`/`verse` by energy relative to `median ± k·std`. -/
def baseLabelOf (i n : ℕ) (segDuration e median std : ℚ) : String :=
  if i = 0 ∧ segDuration < 15 then "intro"
  else if i = n - 1 ∧ segDuration < 15 then "outro"
  else if e > median + 1/2 * std then "chorus"
  else if e < median - 3/10 * std then "bridge"
  else "verse"

/-- The duplicate-label numbering step: count the existing labels that start
with the base label; on a clash the new span gets `base_(count+1)` and the
span labelled exactly `base` (the first occurrence) is retroactively renamed
to `base_1`. -/
def disambiguate (sections : List Section) (base : String) : String × List Section :=
  let count := (sections.map Section.label).countP (fun l => pyStartsWith l base)
  if 0 < count then
    (base ++ "_" ++ natRepr (count + 1),
     sections.map (fun s => if s.label = base then { s with label := base ++ "_1" } else s))
  else (base, sections)

/-- The section-building loop of `_detect_sections` over the spans (pairs of
consecutive boundaries) zipped with their energies, carrying the span index
`i` and the accumulated section list. -/
def buildSections (n : ℕ) (median std : ℚ) :
    ℕ → List ((ℚ × ℚ) × ℚ) → List Section → List Section
  | _, [], acc => acc
  | i, ((s, e), en) :: rest, acc =>
      let segDuration := e - s
      let base := baseLabelOf i n segDuration en median std
      let (label, acc') := disambiguate acc base
      let confidence := min 1 (1/2 + 1/2 * |en - median| / (std + 1/10000000000))
      buildSections n median std (i + 1) rest
        (acc' ++ [{ label := label, start_time := round3 s, end_time := round3 e,
                    confidence := round2 confidence, energy := round4 en }])

/-- `_detect_sections`, parameterised by the outputs of the external numeric
oracles: the novelty-peak boundary candidates `boundary_times` (librosa
features, novelty curve, `scipy.signal.find_peaks`), the beat grid, the RMS
curve, and numpy's floating-point square root `sqrtQ` (used only to turn the
variance into `np.std`).  The boundary assembly, snapping, span energies,
median/std statistics, heuristic labelling, duplicate numbering, confidence
and rounding are the embedded logic. -/
def detectSections (sqrtQ : ℚ → ℚ) (boundary_times beat_times : List ℚ)
    (duration : ℚ) (rms : List ℚ) (sr : ℕ) : List Section :=
  let boundaries := finalBoundaries boundary_times beat_times duration
  let spans := boundaries.zip (boundaries.drop 1)
  let energies := spans.map (fun p => segmentEnergy rms sr p.1 p.2)
  if energies.isEmpty then []
  else
    let energy_median := medianQ energies
    let energy_std := sqrtQ (varQ energies)
    buildSections energies.length energy_median energy_std 0 (spans.zip energies) []

/-- The dict returned by `rearrange` (the fields a claim can observe): the
parsed operation, the original and new section lists, and the track info
(inserted clips and total rendered duration). -/
structure RearrangeResult where
  operation : Operation
  original_sections : List Section
  new_arrangement : List Section
  track_clips : List Clip
  track_total_duration : ℚ
deriving DecidableEq, Repr

/-- `rearrange`: the structure analysis (`analyze`, librosa numerics) is an
external collaborator, so the `Arrangement` it produced is a parameter, as
are the native sample rate `sr` and sample count `total_samples` of the
loaded source audio.  Errors raised by `_execute_operation` propagate and
abort the call. -/
def rearrange (arrangement : Arrangement) (prompt : String) (start_time : ℚ)
    (sr : ℕ) (total_samples : ℤ) : Except String RearrangeResult :=
  let operation := parsePrompt prompt arrangement
  (executeOperation arrangement operation).map (fun new_sections =>
    let (clips, final_offset) := insertArrangement new_sections start_time sr total_samples
    { operation := operation, original_sections := arrangement.sections,
      new_arrangement := new_sections, track_clips := clips,
      track_total_duration := final_offset - start_time })

/-- Builder for concrete scenario sections (confidence 1, energy 0: both are
payload fields that merely travel along). -/
def mkSection (l : String) (a b : ℚ) : Section :=
  { label := l, start_time := a, end_time := b, confidence := 1, energy := 0 }

/-- The 40-second scenario Arrangement of the spec:
`[intro 0–8][verse 8–20][chorus 20–32][outro 32–40]` at bpm 120.  The
rendering stage uses a 100 Hz sample grid (4000 source samples), which keeps
sample numbers readable: second `t` starts at sample `100·t`. -/
def scenarioArrangement : Arrangement :=
  { bpm := 120, total_duration := 40,
    sections := [mkSection ("intro") 0 8, mkSection ("verse") 8 20,
                 mkSection ("chorus") 20 32, mkSection ("outro") 32 40],
    beat_times := [] }

/-- The clips actually produced for the prompt "swap verse and outro" on
`scenarioArrangement`: each one slices the original audio at its
recalculated timeline position, not at its section's source range. -/
def swapScenarioClips : List Clip :=
  [{ label := ("intro"), src_start_sample := 0, src_end_sample := 800,
     timeline_position := 0, duration := 8 },
   { label := ("outro"), src_start_sample := 800, src_end_sample := 1600,
     timeline_position := 8, duration := 8 },
   { label := ("chorus"), src_start_sample := 1600, src_end_sample := 2800,
     timeline_position := 16, duration := 12 },
   { label := ("verse"), src_start_sample := 2800, src_end_sample := 4000,
     timeline_position := 28, duration := 12 }]

/-- The clips actually produced for the prompt "double the chorus" on
`scenarioArrangement`: only four clips, the `chorus_copy` clip slicing
samples 3200–4000 (the outro's audio, clamped), and the `outro` section
skipped as out of range. -/
def doubleScenarioClips : List Clip :=
  [{ label := ("intro"), src_start_sample := 0, src_end_sample := 800,
     timeline_position := 0, duration := 8 },
   { label := ("verse"), src_start_sample := 800, src_end_sample := 2000,
     timeline_position := 8, duration := 12 },
   { label := ("chorus"), src_start_sample := 2000, src_end_sample := 3200,
     timeline_position := 20, duration := 12 },
   { label := ("chorus_copy"), src_start_sample := 3200, src_end_sample := 4000,
     timeline_position := 32, duration := 12 }]

/-- The fixed vocabulary of base labels the heuristic labeller can emit. -/
def labelVocab : List String := [("intro"), ("outro"), ("chorus"), ("bridge"), ("verse")]

/-- The family of a base label inside a label list: the labels counted by the
`l.startswith(base_label)` test of the duplicate-numbering step. -/
def famFilter (labels : List String) (b : String) : List String :=
  labels.filter (fun l => pyStartsWith l b)

/-- The canonical shape of a base label's family after duplicate numbering:
absent, the bare base label, or `base_1, base_2, ..., base_n`. -/
def famCanon (b : String) (n : ℕ) : List String :=
  if n = 0 then []
  else if n = 1 then [b]
  else (List.range n).map (fun k => b ++ "_" ++ natRepr (k + 1))

/-- The invariant maintained by the section-building loop of
`_detect_sections`: every label extends a vocabulary base label, and every
base label's family has the canonical numbered shape. -/
def labelInv (labels : List String) : Prop :=
  (∀ l ∈ labels, ∃ b ∈ labelVocab, pyStartsWith l b = true) ∧
  ∀ b ∈ labelVocab, famFilter labels b = famCanon b (famFilter labels b).length

end Waive

namespace Waive

/-- C1: on the scenario arrangement the prompt "swap verse and outro" does
yield the section order `[intro][outro][chorus][verse]`, but the rendered
clips do NOT slice the original audio at the source ranges of the sections
they were produced from: `_recalculate_timeline` overwrites the section
times with timeline positions and `_insert_arrangement` then slices the
original waveform at those recalculated positions, so the `outro` clip
extracts samples 800–1600 (seconds 8–16, verse audio) instead of the outro's
source range 3200–4000 (seconds 32–40).  The first conjunct evaluates the
code at the failing input; the second refutes the claim's source-range
preservation property there. -/
theorem c1_swap_scenario_actual_behavior :
    rearrange scenarioArrangement ("swap verse and outro") 0 100 4000 =
      Except.ok
        { operation := Operation.swap ("verse") ("outro"),
          original_sections := scenarioArrangement.sections,
          new_arrangement :=
            [mkSection ("intro") 0 8, mkSection ("outro") 8 16,
             mkSection ("chorus") 16 28, mkSection ("verse") 28 40],
          track_clips := swapScenarioClips,
          track_total_duration := 40 } ∧
    ¬ (∀ c ∈ swapScenarioClips, ∀ s ∈ scenarioArrangement.sections,
        s.label = c.label →
          c.src_start_sample = pyInt (s.start_time * 100) ∧
          c.src_end_sample = pyInt (s.end_time * 100)) := by
  have hparse : parsePrompt ("swap verse and outro") scenarioArrangement =
      Operation.swap ("verse") ("outro") := by decide
  have hcore : executeCore scenarioArrangement (Operation.swap ("verse") ("outro")) =
      Except.ok [mkSection ("intro") 0 8, mkSection ("outro") 32 40,
                 mkSection ("chorus") 20 32, mkSection ("verse") 8 20] := by decide
  have hrecalc : recalculateTimeline
      [mkSection ("intro") 0 8, mkSection ("outro") 32 40,
       mkSection ("chorus") 20 32, mkSection ("verse") 8 20] =
      [mkSection ("intro") 0 8, mkSection ("outro") 8 16,
       mkSection ("chorus") 16 28, mkSection ("verse") 28 40] := by
    norm_num [recalculateTimeline, recalcGo, round3, pyRound, Section.duration, mkSection]
  have hins : insertArrangement
      [mkSection ("intro") 0 8, mkSection ("outro") 8 16,
       mkSection ("chorus") 16 28, mkSection ("verse") 28 40] 0 100 4000 =
      (swapScenarioClips, 40) := by
    norm_num [insertArrangement, insertGo, pyInt, Section.duration, mkSection,
      swapScenarioClips]
  constructor
  · simp [rearrange, executeOperation, hparse, hcore, hrecalc, hins, Except.map]
  · intro h
    have hc := h { label := ("outro"), src_start_sample := 800, src_end_sample := 1600,
                   timeline_position := 8, duration := 8 }
      (by simp [swapScenarioClips]) (mkSection ("outro") 32 40)
      (by simp [scenarioArrangement]) (by simp [mkSection])
    have h1 := hc.1
    norm_num [pyInt, mkSection] at h1

/-- C2: on the scenario arrangement the prompt "double the chorus" does add
exactly one section, a `chorus_copy` immediately after `chorus` (5 sections),
but rendering does not produce 5 clips with the 3rd and 4th both slicing
source 20–32s: only 4 clips are inserted, the `chorus_copy` clip slices
samples 3200–4000 (seconds 32–40, the outro audio, clamped from its
recalculated timeline range 32–44), and the `outro` section's recalculated
range 44–52 clamps to an empty sample range and is skipped. -/
theorem c2_double_chorus_scenario_actual_behavior :
    rearrange scenarioArrangement ("double the chorus") 0 100 4000 =
      Except.ok
        { operation := Operation.duplicate ("chorus") 2,
          original_sections := scenarioArrangement.sections,
          new_arrangement :=
            [mkSection ("intro") 0 8, mkSection ("verse") 8 20,
             mkSection ("chorus") 20 32, mkSection ("chorus_copy") 32 44,
             mkSection ("outro") 44 52],
          track_clips := doubleScenarioClips,
          track_total_duration := 44 } ∧
    doubleScenarioClips.length ≠ 5 ∧
    ((doubleScenarioClips.getD 3 default).src_start_sample,
     (doubleScenarioClips.getD 3 default).src_end_sample) ≠ (2000, 3200) := by
  have hparse : parsePrompt ("double the chorus") scenarioArrangement =
      Operation.duplicate ("chorus") 2 := by decide
  have hcore : executeCore scenarioArrangement (Operation.duplicate ("chorus") 2) =
      Except.ok [mkSection ("intro") 0 8, mkSection ("verse") 8 20,
                 mkSection ("chorus") 20 32, mkSection ("chorus_copy") 20 32,
                 mkSection ("outro") 32 40] := by decide
  have hrecalc : recalculateTimeline
      [mkSection ("intro") 0 8, mkSection ("verse") 8 20,
       mkSection ("chorus") 20 32, mkSection ("chorus_copy") 20 32,
       mkSection ("outro") 32 40] =
      [mkSection ("intro") 0 8, mkSection ("verse") 8 20,
       mkSection ("chorus") 20 32, mkSection ("chorus_copy") 32 44,
       mkSection ("outro") 44 52] := by
    norm_num [recalculateTimeline, recalcGo, round3, pyRound, Section.duration, mkSection]
  have hins : insertArrangement
      [mkSection ("intro") 0 8, mkSection ("verse") 8 20,
       mkSection ("chorus") 20 32, mkSection ("chorus_copy") 32 44,
       mkSection ("outro") 44 52] 0 100 4000 =
      (doubleScenarioClips, 44) := by
    norm_num [insertArrangement, insertGo, pyInt, Section.duration, mkSection,
      doubleScenarioClips]
  refine ⟨?_, by simp [doubleScenarioClips], by simp [doubleScenarioClips]⟩
  simp [rearrange, executeOperation, hparse, hcore, hrecalc, hins, Except.map]

theorem recalcGo_map_label (t : ℚ) (l : List Section) :
    (recalcGo t l).map Section.label = l.map Section.label := by
  induction l generalizing t with
  | nil => rfl
  | cons s rest ih => simp [recalcGo, ih]

theorem recalculateTimeline_map_label (l : List Section) :
    (recalculateTimeline l).map Section.label = l.map Section.label :=
  recalcGo_map_label 0 l

theorem recalcGo_length (t : ℚ) (l : List Section) :
    (recalcGo t l).length = l.length := by
  induction l generalizing t with
  | nil => rfl
  | cons s rest ih => simp [recalcGo, ih]

theorem recalculateTimeline_length (l : List Section) :
    (recalculateTimeline l).length = l.length :=
  recalcGo_length 0 l

theorem findSection_mem {name : String} {sections : List Section} {t : Section}
    (h : findSection name sections = some t) : t ∈ sections := by
  simp only [findSection] at h
  split at h
  next s heq => cases h; exact List.mem_of_find?_eq_some heq
  next heq => exact List.mem_of_find?_eq_some h

theorem label_not_mem_map_erase {t : Section} :
    ∀ {sections : List Section}, (sections.map Section.label).Nodup → t ∈ sections →
      t.label ∉ (sections.erase t).map Section.label := by
  intro sections
  induction sections with
  | nil => intro _ h; cases h
  | cons s rest ih =>
      intro hnodup hmem
      rcases List.mem_cons.1 hmem with rfl | hmem'
      · rw [List.erase_cons_head]
        exact (List.nodup_cons.1 hnodup).1
      · by_cases hst : s = t
        · subst hst
          rw [List.erase_cons_head]
          exact (List.nodup_cons.1 hnodup).1
        · rw [List.erase_cons_tail (by simp [hst])]
          intro hin
          rcases List.mem_map.1 hin with ⟨u, hu, hul⟩
          rcases List.mem_cons.1 hu with rfl | hu'
          · exact (List.nodup_cons.1 hnodup).1
              (hul ▸ List.mem_map_of_mem Section.label hmem')
          · exact ih (List.nodup_cons.1 hnodup).2 hmem'
              (hul ▸ List.mem_map_of_mem Section.label hu')

/-- C3 counterexample: removing the only Section of a sequence does not
fail — the executor succeeds and returns the empty sequence, so the claim's
"fails if it would remove the only Section" is false on the code. -/
theorem c3_remove_only_section_counterexample :
    executeOperation
        { bpm := 120, total_duration := 1,
          sections := [mkSection ("a") 0 1], beat_times := [] }
        (Operation.remove ("a")) =
      Except.ok [] := by decide

/-- C3 (amended): `Remove` deletes the first Section matching the target,
decreasing the count by exactly 1, and (when labels are distinct) the removed
label no longer appears; it fails when the target label cannot be resolved,
leaving the Arrangement unchanged (the executor works on a copy and raises
before any edit).  Unlike the original claim, removing the only Section
succeeds, yielding the empty sequence. -/
theorem c3_remove_amended :
    (∀ (arr : Arrangement) (target : String),
      findSection target arr.sections = none →
        executeOperation arr (Operation.remove target) =
          Except.error (("Section not found: ") ++ target)) ∧
    (∀ (arr : Arrangement) (target : String) (t : Section),
      findSection target arr.sections = some t →
        ∃ l, executeOperation arr (Operation.remove target) = Except.ok l ∧
          l.length = arr.sections.length - 1 ∧
          ((arr.sections.map Section.label).Nodup →
            t.label ∉ l.map Section.label)) := by
  constructor
  · intro arr target h
    simp [executeOperation, executeCore, h, Except.map]
  · intro arr target t h
    refine ⟨recalculateTimeline (arr.sections.erase t), ?_, ?_, ?_⟩
    · simp [executeOperation, executeCore, h, Except.map]
    · rw [recalculateTimeline_length, List.length_erase_of_mem (findSection_mem h)]
    · intro hnodup
      rw [recalculateTimeline_map_label]
      exact label_not_mem_map_erase hnodup (findSection_mem h)

/-- C3 witness: on the scenario arrangement, "remove the bridge" fails with
the not-found error (no `bridge` Section), and removing `verse` succeeds
with 3 of the 4 sections left and no `verse` label remaining. -/
theorem c3_remove_amended_witness :
    (executeOperation scenarioArrangement (Operation.remove ("bridge")) =
      Except.error (("Section not found: ") ++ ("bridge"))) ∧
    (∃ l, executeOperation scenarioArrangement (Operation.remove ("verse")) = Except.ok l ∧
      l.length = scenarioArrangement.sections.length - 1 ∧
      ((scenarioArrangement.sections.map Section.label).Nodup →
        (mkSection ("verse") 8 20).label ∉ l.map Section.label)) :=
  ⟨c3_remove_amended.1 scenarioArrangement ("bridge") (by decide),
   c3_remove_amended.2 scenarioArrangement ("verse") (mkSection ("verse") 8 20) (by decide)⟩

/-- C4 counterexample: with bpm 7, extending the single section `[a 0–1]` by
1 bar must add exactly `1·(60/7)·4 = 240/7 ≈ 34.2857` seconds, but the
executor's final timeline recalculation rounds the rewritten times to 3
decimals, so the returned section has duration `35.286 − 0 = 17643/500`,
which differs from `1 + 240/7 = 247/7`. -/
theorem c4_extend_rounding_counterexample :
    (executeOperation
        { bpm := 7, total_duration := 1,
          sections := [mkSection ("a") 0 1], beat_times := [] }
        (Operation.extend ("a") 1)).map (List.map Section.duration) =
      Except.ok [(17643 : ℚ) / 500] ∧
    (17643 : ℚ) / 500 ≠ (mkSection ("a") 0 1).duration + (1 : ℚ) * (60 / 7 * 4) := by
  constructor
  · have hcore : executeCore
        { bpm := 7, total_duration := 1,
          sections := [mkSection ("a") 0 1], beat_times := [] }
        (Operation.extend ("a") 1) =
        Except.ok [mkSection ("a") 0 (1 + 240/7)] := by
      norm_num +decide [executeCore, findSection, pyLower, pyStrip, pyContains, asciiLower,
        isPySpace, mkSection, List.indexOf, List.findIdx_cons, cond_eq_if, beq_iff_eq,
        Section.mk.injEq, List.set]
    have hrecalc : recalculateTimeline [mkSection ("a") 0 (1 + 240/7)] =
        [mkSection ("a") 0 (17643/500)] := by
      norm_num [recalculateTimeline, recalcGo, round3, pyRound, Section.duration, mkSection]
    simp only [executeOperation, hcore, hrecalc, Except.map]
    norm_num [mkSection, Section.duration]
  · norm_num [Section.duration, mkSection]

/-- C4 (amended): for bpm > 0 and a resolvable target, the Extend edit
increases the target Section's duration by exactly `bars·(60/bpm)·4` seconds
and leaves every other duration unchanged **in the edited sequence before
the executor's final timeline recalculation**; that recalculation then
rounds the rewritten times to 3 decimals, so the durations of the returned
sections agree with these only up to millisecond rounding
(`c4_extend_rounding_counterexample`). -/
theorem c4_extend_amended (arr : Arrangement) (target : String) (t : Section) (bars : ℕ)
    (_hbpm : 0 < arr.bpm) (h : findSection target arr.sections = some t) :
    ∃ l, executeCore arr (Operation.extend target bars) = Except.ok l ∧
      l.map Section.duration =
        (arr.sections.map Section.duration).set (arr.sections.indexOf t)
          (t.duration + (bars : ℚ) * (60 / arr.bpm * 4)) := by
  refine ⟨arr.sections.set (arr.sections.indexOf t)
      { t with end_time := t.end_time + (bars : ℚ) * (60 / arr.bpm * 4) }, ?_, ?_⟩
  · simp [executeCore, h]
  · rw [List.map_set]
    congr 1
    simp [Section.duration]
    ring

/-- C4 witness: on the scenario arrangement (bpm 120), extending `verse` by
2 bars yields, before the final recalculation, durations
`[8, 12 + 2·(60/120)·4, 12, 8] = [8, 16, 12, 8]`. -/
theorem c4_extend_amended_witness :
    (0 : ℚ) < scenarioArrangement.bpm ∧
    ∃ l, executeCore scenarioArrangement (Operation.extend ("verse") 2) = Except.ok l ∧
      l.map Section.duration =
        (scenarioArrangement.sections.map Section.duration).set
          (scenarioArrangement.sections.indexOf (mkSection ("verse") 8 20))
          ((mkSection ("verse") 8 20).duration + (2 : ℚ) * (60 / scenarioArrangement.bpm * 4)) :=
  ⟨by norm_num [scenarioArrangement],
   c4_extend_amended scenarioArrangement ("verse") (mkSection ("verse") 8 20) 2
     (by norm_num [scenarioArrangement]) (by decide)⟩

theorem cons_set_perm {α : Type} (x : α) :
    ∀ (xs : List α) (k : ℕ) (h : k < xs.length),
      List.Perm (xs[k] :: xs.set k x) (x :: xs) := by
  intro xs
  induction xs with
  | nil => intro k h; simp at h
  | cons y ys ih =>
      intro k h
      match k with
      | 0 => simpa using List.Perm.swap x y ys
      | k + 1 =>
          have hk : k < ys.length := by simpa using h
          simp only [List.getElem_cons_succ, List.set_cons_succ]
          exact ((List.Perm.swap y (ys.get ⟨k, hk⟩) (ys.set k x)).trans
            ((ih k hk).cons y)).trans (List.Perm.swap x y ys)

theorem swap_set_perm {α : Type} :
    ∀ (l : List α) (i j : ℕ) (hi : i < l.length) (hj : j < l.length),
      List.Perm ((l.set i l[j]).set j l[i]) l := by
  intro l
  induction l with
  | nil => intro i j hi _; simp at hi
  | cons x xs ih =>
      intro i j hi hj
      match i, j with
      | 0, 0 => simp
      | 0, k + 1 => simpa using cons_set_perm x xs k (by simpa using hj)
      | m + 1, 0 => simpa using cons_set_perm x xs m (by simpa using hi)
      | m + 1, k + 1 =>
          simpa using (ih m k (by simpa using hi) (by simpa using hj)).cons x

theorem find?_exact {n : String} {t : Section} :
    ∀ {sections : List Section},
      (sections.map (fun s => pyLower s.label)).Nodup → t ∈ sections →
      n = pyLower t.label →
      sections.find? (fun s => pyLower s.label == n) = some t := by
  intro sections
  induction sections with
  | nil => intro _ h _; cases h
  | cons s rest ih =>
      intro hnd hmem hn
      rcases List.mem_cons.1 hmem with rfl | hmem'
      · exact List.find?_cons_of_pos _ (by simp [hn])
      · have hne : pyLower s.label ≠ n := by
          intro he
          apply (List.nodup_cons.1 hnd).1
          show pyLower s.label ∈ List.map (fun s => pyLower s.label) rest
          rw [he, hn]
          exact List.mem_map_of_mem _ hmem'
        rw [List.find?_cons_of_neg _ (by simp [hne])]
        exact ih (List.nodup_cons.1 hnd).2 hmem' hn

/-- When the (lower-cased) labels are pairwise distinct and the requested
name is exactly a section's label (case-insensitively, after stripping),
`_find_section` resolves to that section, independently of its position. -/
theorem findSection_exact {a : String} {sections : List Section} {sa : Section}
    (hnd : (sections.map (fun s => pyLower s.label)).Nodup)
    (hmem : sa ∈ sections) (hlab : pyLower (pyStrip a) = pyLower sa.label) :
    findSection a sections = some sa := by
  simp only [findSection, find?_exact hnd hmem hlab]

/-- C5 counterexample: on the two-section sequence `[verse_1][verse_2]`
(labels resolve: "verse" resolves to `verse_1` by substring match,
"verse_2" exactly), applying `Swap(verse, verse_2)` twice through the
executor does NOT restore the original order: after the first swap the
fuzzy "verse" lookup resolves to `verse_2` (now first), so the second swap
is a no-op and the final label order is `[verse_2][verse_1]`. -/
theorem c5_swap_involution_counterexample :
    ((executeOperation
        { bpm := 120, total_duration := 2,
          sections := [mkSection ("verse_1") 0 1, mkSection ("verse_2") 1 2],
          beat_times := [] }
        (Operation.swap ("verse") ("verse_2"))).bind (fun l1 =>
      (executeOperation
          { bpm := 120, total_duration := 2, sections := l1, beat_times := [] }
          (Operation.swap ("verse") ("verse_2"))).map
        (fun l2 => l2.map Section.label))) =
      Except.ok [("verse_2"), ("verse_1")] ∧
    [("verse_2"), ("verse_1")] ≠
      [mkSection ("verse_1") 0 1, mkSection ("verse_2") 1 2].map Section.label := by
  have hcore1 : executeCore
      { bpm := 120, total_duration := 2,
        sections := [mkSection ("verse_1") 0 1, mkSection ("verse_2") 1 2],
        beat_times := [] }
      (Operation.swap ("verse") ("verse_2")) =
      Except.ok [mkSection ("verse_2") 1 2, mkSection ("verse_1") 0 1] := by decide
  have hrecalc1 : recalculateTimeline
      [mkSection ("verse_2") 1 2, mkSection ("verse_1") 0 1] =
      [mkSection ("verse_2") 0 1, mkSection ("verse_1") 1 2] := by
    norm_num [recalculateTimeline, recalcGo, round3, pyRound, Section.duration, mkSection]
  have hcore2 : executeCore
      { bpm := 120, total_duration := 2,
        sections := [mkSection ("verse_2") 0 1, mkSection ("verse_1") 1 2],
        beat_times := [] }
      (Operation.swap ("verse") ("verse_2")) =
      Except.ok [mkSection ("verse_2") 0 1, mkSection ("verse_1") 1 2] := by decide
  have hrecalc2 : recalculateTimeline
      [mkSection ("verse_2") 0 1, mkSection ("verse_1") 1 2] =
      [mkSection ("verse_2") 0 1, mkSection ("verse_1") 1 2] := by
    norm_num [recalculateTimeline, recalcGo, round3, pyRound, Section.duration, mkSection]
  constructor
  · simp only [executeOperation, hcore1, Except.map, hrecalc1, Except.bind, hcore2, hrecalc2]
    simp [mkSection]
  · simp [mkSection]

/-- C5 (amended): when the lower-cased labels of the sequence are pairwise
distinct and both operands are exact (case-insensitive) labels of sections —
which is how the Prompt Interpreter emits swap operations when resolution
succeeds, since it stores the resolved labels — applying `Swap(a,b)` twice
through the executor restores the original order of the sequence (its label
order; the timeline times are recomputed either way).  The original claim,
which also covers fuzzily-resolving operands, is refuted by
`c5_swap_involution_counterexample`. -/
theorem c5_swap_involution_amended
    (arr : Arrangement) (a b : String) (sa sb : Section) (l1 l2 : List Section)
    (hnd : (arr.sections.map (fun s => pyLower s.label)).Nodup)
    (hamem : sa ∈ arr.sections) (ha : pyLower (pyStrip a) = pyLower sa.label)
    (hbmem : sb ∈ arr.sections) (hb : pyLower (pyStrip b) = pyLower sb.label)
    (h1 : executeOperation arr (Operation.swap a b) = Except.ok l1)
    (h2 : executeOperation { arr with sections := l1 } (Operation.swap a b) = Except.ok l2) :
    l2.map Section.label = arr.sections.map Section.label := by
  have hfa : findSection a arr.sections = some sa := findSection_exact hnd hamem ha
  have hfb : findSection b arr.sections = some sb := findSection_exact hnd hbmem hb
  have hia : arr.sections.indexOf sa < arr.sections.length := List.indexOf_lt_length.2 hamem
  have hib : arr.sections.indexOf sb < arr.sections.length := List.indexOf_lt_length.2 hbmem
  have hgia : arr.sections[arr.sections.indexOf sa] = sa := List.getElem_indexOf hia
  have hgib : arr.sections[arr.sections.indexOf sb] = sb := List.getElem_indexOf hib
  have hl1 : l1 = recalculateTimeline
      ((arr.sections.set (arr.sections.indexOf sa) sb).set (arr.sections.indexOf sb) sa) := by
    simp only [executeOperation, executeCore, hfa, hfb, Except.map, Except.ok.injEq] at h1
    exact h1.symm
  have hlen1 : l1.length = arr.sections.length := by
    rw [hl1, recalculateTimeline_length]; simp
  have hmlab1 : l1.map Section.label =
      ((arr.sections.map Section.label).set (arr.sections.indexOf sa) sb.label).set
        (arr.sections.indexOf sb) sa.label := by
    rw [hl1, recalculateTimeline_map_label, List.map_set, List.map_set]
  have hperm : List.Perm
      ((arr.sections.set (arr.sections.indexOf sa) sb).set (arr.sections.indexOf sb) sa)
      arr.sections := by
    have h := swap_set_perm arr.sections (arr.sections.indexOf sa) (arr.sections.indexOf sb)
      hia hib
    rwa [hgia, hgib] at h
  have hkey : ∀ (l : List Section), (l.map fun s => pyLower s.label) =
      List.map pyLower (l.map Section.label) := by
    intro l
    rw [List.map_map]
    rfl
  have hnd1 : (l1.map fun s => pyLower s.label).Nodup := by
    have hlow1 : (l1.map fun s => pyLower s.label) =
        ((arr.sections.set (arr.sections.indexOf sa) sb).set
          (arr.sections.indexOf sb) sa).map (fun s => pyLower s.label) := by
      rw [hkey, hkey, hl1, recalculateTimeline_map_label]
    rw [hlow1]
    exact ((hperm.map (fun s => pyLower s.label)).nodup_iff).2 hnd
  have hnds1 : l1.Nodup := hnd1.of_map _
  have hib1 : arr.sections.indexOf sb < l1.length := by rw [hlen1]; exact hib
  have hia1 : arr.sections.indexOf sa < l1.length := by rw [hlen1]; exact hia
  have hiaib : arr.sections.indexOf sa = arr.sections.indexOf sb → sa = sb := by
    intro h
    rw [← hgia, ← hgib]
    exact congrArg (fun k => arr.sections.getD k sa)
      (show arr.sections.indexOf sa = arr.sections.indexOf sb from h) |>.trans
        (by rw [List.getD_eq_getElem _ _ hib]) |>.symm.trans
        (by rw [List.getD_eq_getElem _ _ hia]) |>.symm
  have e1 : (l1.get ⟨arr.sections.indexOf sb, hib1⟩).label = sa.label := by
    have hq : (l1.map Section.label)[arr.sections.indexOf sb]? = some sa.label := by
      rw [hmlab1, List.getElem?_set]
      simp [hib]
    rw [List.getElem?_map, List.getElem?_eq_getElem hib1] at hq
    simpa using hq
  have e2 : (l1.get ⟨arr.sections.indexOf sa, hia1⟩).label = sb.label := by
    have hq : (l1.map Section.label)[arr.sections.indexOf sa]? = some sb.label := by
      rw [hmlab1, List.getElem?_set]
      by_cases hij : arr.sections.indexOf sb = arr.sections.indexOf sa
      · have hsab : sa = sb := hiaib hij.symm
        rw [if_pos hij]
        simp [hij.symm, hia, hib, hsab]
      · rw [if_neg hij, List.getElem?_set]
        simp [hia]
    rw [List.getElem?_map, List.getElem?_eq_getElem hia1] at hq
    simpa using hq
  have hfa2 : findSection a l1 = some (l1.get ⟨arr.sections.indexOf sb, hib1⟩) :=
    findSection_exact hnd1 (List.getElem_mem _) (by rw [ha, e1])
  have hfb2 : findSection b l1 = some (l1.get ⟨arr.sections.indexOf sa, hia1⟩) :=
    findSection_exact hnd1 (List.getElem_mem _) (by rw [hb, e2])
  have hidx2a : l1.indexOf (l1.get ⟨arr.sections.indexOf sb, hib1⟩) = arr.sections.indexOf sb :=
    List.indexOf_getElem hnds1 _ _
  have hidx2b : l1.indexOf (l1.get ⟨arr.sections.indexOf sa, hia1⟩) = arr.sections.indexOf sa :=
    List.indexOf_getElem hnds1 _ _
  have hl2 : l2 = recalculateTimeline
      ((l1.set (arr.sections.indexOf sb) (l1.get ⟨arr.sections.indexOf sa, hia1⟩)).set
        (arr.sections.indexOf sa) (l1.get ⟨arr.sections.indexOf sb, hib1⟩)) := by
    simp only [executeOperation, executeCore, hfa2, hfb2, hidx2a, hidx2b, Except.map,
      Except.ok.injEq] at h2
    exact h2.symm
  rw [hl2, recalculateTimeline_map_label, List.map_set, List.map_set, e1, e2, hmlab1]
  apply List.ext_getElem?
  intro k
  have hlenM : (arr.sections.map Section.label).length = arr.sections.length := by simp
  by_cases hk1 : arr.sections.indexOf sa = k
  · subst hk1
    simp only [List.getElem?_set, List.length_set, hlenM, if_pos rfl, hia, if_true]
    rw [List.getElem?_map, List.getElem?_eq_getElem hia, hgia]
    rfl
  · by_cases hk2 : arr.sections.indexOf sb = k
    · subst hk2
      simp only [List.getElem?_set, List.length_set, hlenM, if_neg hk1, if_pos rfl, hib,
        if_true]
      rw [List.getElem?_map, List.getElem?_eq_getElem hib, hgib]
      rfl
    · simp only [List.getElem?_set, if_neg hk1, if_neg hk2]

/-- C5 witness: on the scenario arrangement (distinct labels, exact operands
"verse" and "outro"), swapping twice restores the original label order. -/
theorem c5_swap_involution_amended_witness :
    ∃ l1 l2,
      executeOperation scenarioArrangement (Operation.swap ("verse") ("outro")) =
        Except.ok l1 ∧
      executeOperation { scenarioArrangement with sections := l1 }
          (Operation.swap ("verse") ("outro")) = Except.ok l2 ∧
      l2.map Section.label = scenarioArrangement.sections.map Section.label := by
  have h1 : executeOperation scenarioArrangement (Operation.swap ("verse") ("outro")) =
      Except.ok [mkSection ("intro") 0 8, mkSection ("outro") 8 16,
                 mkSection ("chorus") 16 28, mkSection ("verse") 28 40] := by
    have hcore : executeCore scenarioArrangement (Operation.swap ("verse") ("outro")) =
        Except.ok [mkSection ("intro") 0 8, mkSection ("outro") 32 40,
                   mkSection ("chorus") 20 32, mkSection ("verse") 8 20] := by decide
    have hrecalc : recalculateTimeline
        [mkSection ("intro") 0 8, mkSection ("outro") 32 40,
         mkSection ("chorus") 20 32, mkSection ("verse") 8 20] =
        [mkSection ("intro") 0 8, mkSection ("outro") 8 16,
         mkSection ("chorus") 16 28, mkSection ("verse") 28 40] := by
      norm_num [recalculateTimeline, recalcGo, round3, pyRound, Section.duration, mkSection]
    simp only [executeOperation, hcore, Except.map, hrecalc]
  have h2 : executeOperation
      { scenarioArrangement with sections :=
          [mkSection ("intro") 0 8, mkSection ("outro") 8 16,
           mkSection ("chorus") 16 28, mkSection ("verse") 28 40] }
      (Operation.swap ("verse") ("outro")) =
      Except.ok [mkSection ("intro") 0 8, mkSection ("verse") 8 20,
                 mkSection ("chorus") 20 32, mkSection ("outro") 32 40] := by
    have hcore : executeCore
        { scenarioArrangement with sections :=
            [mkSection ("intro") 0 8, mkSection ("outro") 8 16,
             mkSection ("chorus") 16 28, mkSection ("verse") 28 40] }
        (Operation.swap ("verse") ("outro")) =
        Except.ok [mkSection ("intro") 0 8, mkSection ("verse") 28 40,
                   mkSection ("chorus") 16 28, mkSection ("outro") 8 16] := by decide
    have hrecalc : recalculateTimeline
        [mkSection ("intro") 0 8, mkSection ("verse") 28 40,
         mkSection ("chorus") 16 28, mkSection ("outro") 8 16] =
        [mkSection ("intro") 0 8, mkSection ("verse") 8 20,
         mkSection ("chorus") 20 32, mkSection ("outro") 32 40] := by
      norm_num [recalculateTimeline, recalcGo, round3, pyRound, Section.duration, mkSection]
    simp only [executeOperation, hcore, Except.map, hrecalc]
  refine ⟨_, _, h1, h2, ?_⟩
  exact c5_swap_involution_amended scenarioArrangement ("verse") ("outro")
    (mkSection ("verse") 8 20) (mkSection ("outro") 32 40) _ _
    (by decide) (by decide) (by decide) (by decide) (by decide) h1 h2

theorem pyInt_nonneg {q : ℚ} (h : 0 ≤ q) : 0 ≤ pyInt q := by
  rw [pyInt, if_pos h]
  exact Int.floor_nonneg.2 h

theorem pyInt_le_self {q : ℚ} {z : ℤ} (hz : 1 ≤ z) (h : z ≤ pyInt q) : (z : ℚ) ≤ q := by
  by_cases hq : 0 ≤ q
  · rw [pyInt, if_pos hq] at h
    exact_mod_cast le_trans (by exact_mod_cast h) (Int.floor_le q)
  · exfalso
    rw [pyInt, if_neg hq] at h
    push_neg at hq
    have : (0 : ℤ) ≤ ⌊-q⌋ := Int.floor_nonneg.2 (by linarith)
    omega

/-- If the clamped start index is strictly below the raw end index, the
underlying times are strictly ordered. -/
theorem pyInt_time_lt {q r : ℚ} (h : max 0 (pyInt q) < pyInt r) : q < r := by
  have hr1 : (1 : ℤ) ≤ pyInt r := by omega
  have hrq : (1 : ℚ) ≤ r := by exact_mod_cast pyInt_le_self le_rfl hr1
  by_cases hq : 0 ≤ q
  · rw [pyInt, if_pos hq] at h
    have hfl : ⌊q⌋ < ⌊r⌋ := by
      rw [pyInt, if_pos (by linarith : (0:ℚ) ≤ r)] at h
      omega
    by_contra hle
    push_neg at hle
    exact absurd (Int.floor_mono hle) (by omega)
  · push_neg at hq
    linarith

/-- Invariants of the `_insert_arrangement` loop, for any section list and
any starting offset: the inserted clips' durations sum to the final offset
minus the initial offset, every inserted clip has positive duration (an
empty or inverted clamped sample range is skipped), the first clip sits at
the starting offset, and each following clip starts exactly where the
previous one ends. -/
theorem insertGo_spec (sr : ℕ) (total : ℤ) (hsr : 1 ≤ sr) :
    ∀ (sections : List Section) (off : ℚ),
      ((insertGo sr total sections off).1.map Clip.duration).sum =
          (insertGo sr total sections off).2 - off ∧
      (∀ c ∈ (insertGo sr total sections off).1, 0 < c.duration) ∧
      (∀ c ∈ (insertGo sr total sections off).1.head?, c.timeline_position = off) ∧
      List.Chain' (fun c d => d.timeline_position = c.timeline_position + c.duration)
        (insertGo sr total sections off).1 := by
  intro sections
  induction sections with
  | nil => intro off; simp [insertGo]
  | cons s rest ih =>
      intro off
      by_cases hc : max 0 (min (pyInt (s.start_time * sr)) total) ≥
          max (max 0 (min (pyInt (s.start_time * sr)) total))
            (min (pyInt (s.end_time * sr)) total)
      · simp only [insertGo, if_pos hc]
        exact ih off
      · have hdur : 0 < s.duration := by
          have hmax : max 0 (pyInt (s.start_time * sr)) < pyInt (s.end_time * sr) := by
            omega
          have hlt : s.start_time * sr < s.end_time * sr := pyInt_time_lt hmax
          have hsr' : (0 : ℚ) < (sr : ℚ) := by exact_mod_cast hsr
          have : s.start_time < s.end_time := by
            by_contra hle
            push_neg at hle
            exact absurd (mul_le_mul_of_nonneg_right hle (le_of_lt hsr')) (not_le.2 hlt)
          simpa [Section.duration] using sub_pos.2 this
        obtain ⟨ihsum, ihpos, ihhead, ihchain⟩ := ih (off + s.duration)
        simp only [insertGo, if_neg hc]
        refine ⟨?_, ?_, ?_, ?_⟩
        · simp only [List.map_cons, List.sum_cons, ihsum]
          ring
        · intro c hcm
          rcases List.mem_cons.1 hcm with rfl | hcm'
          · exact hdur
          · exact ihpos c hcm'
        · intro c hcm
          simp only [List.head?_cons, Option.mem_def, Option.some.injEq] at hcm
          rw [← hcm]
        · rw [List.chain'_cons']
          exact ⟨fun d hd => (ihhead d hd).symm ▸ rfl, ihchain⟩

theorem clips_chain_strict (l : List Clip)
    (hpos : ∀ c ∈ l, 0 < c.duration)
    (hch : List.Chain' (fun c d => d.timeline_position = c.timeline_position + c.duration) l) :
    List.Chain' (fun c d => c.timeline_position < d.timeline_position) l := by
  induction l with
  | nil => simp
  | cons c rest ih =>
      rcases rest with _ | ⟨d, rest'⟩
      · simp
      · rw [List.chain'_cons] at hch ⊢
        refine ⟨?_, ih (fun x hx => hpos x (List.mem_cons_of_mem _ hx)) hch.2⟩
        rw [hch.1]
        have := hpos c (List.mem_cons_self _ _)
        linarith

/-- C6: after any successfully executed Operation, the rendered clips
satisfy the timeline invariants: positions are strictly increasing, the
first clip is placed at the caller-provided output offset, consecutive clips
meet with no gaps (each next position is the previous position plus the
previous duration), and the sum of clip durations equals the final timeline
offset minus the initial offset. -/
theorem c6_timeline_invariants (arr : Arrangement) (op : Operation)
    (new_sections : List Section) (start_time : ℚ) (sr : ℕ) (total : ℤ)
    (hsr : 1 ≤ sr)
    (_h : executeOperation arr op = Except.ok new_sections) :
    ((insertArrangement new_sections start_time sr total).1.map Clip.duration).sum =
      (insertArrangement new_sections start_time sr total).2 - start_time ∧
    (∀ c ∈ (insertArrangement new_sections start_time sr total).1.head?,
      c.timeline_position = start_time) ∧
    List.Chain' (fun c d => d.timeline_position = c.timeline_position + c.duration)
      (insertArrangement new_sections start_time sr total).1 ∧
    List.Chain' (fun c d => c.timeline_position < d.timeline_position)
      (insertArrangement new_sections start_time sr total).1 := by
  obtain ⟨hsum, hpos, hhead, hchain⟩ := insertGo_spec sr total hsr new_sections start_time
  exact ⟨hsum, hhead, hchain, clips_chain_strict _ hpos hchain⟩

/-- C6 witness: the invariants hold for the clips rendered after removing
`verse` from the scenario arrangement (output offset 5, 100 Hz grid). -/
theorem c6_timeline_invariants_witness :
    ((insertArrangement
        [mkSection ("intro") 0 8, mkSection ("chorus") 8 20, mkSection ("outro") 20 28]
        5 100 4000).1.map Clip.duration).sum =
      (insertArrangement
        [mkSection ("intro") 0 8, mkSection ("chorus") 8 20, mkSection ("outro") 20 28]
        5 100 4000).2 - 5 ∧
    (∀ c ∈ (insertArrangement
        [mkSection ("intro") 0 8, mkSection ("chorus") 8 20, mkSection ("outro") 20 28]
        5 100 4000).1.head?, c.timeline_position = 5) ∧
    List.Chain' (fun c d => d.timeline_position = c.timeline_position + c.duration)
      (insertArrangement
        [mkSection ("intro") 0 8, mkSection ("chorus") 8 20, mkSection ("outro") 20 28]
        5 100 4000).1 ∧
    List.Chain' (fun c d => c.timeline_position < d.timeline_position)
      (insertArrangement
        [mkSection ("intro") 0 8, mkSection ("chorus") 8 20, mkSection ("outro") 20 28]
        5 100 4000).1 := by
  have h : executeOperation scenarioArrangement (Operation.remove ("verse")) =
      Except.ok [mkSection ("intro") 0 8, mkSection ("chorus") 8 20,
                 mkSection ("outro") 20 28] := by
    have hcore : executeCore scenarioArrangement (Operation.remove ("verse")) =
        Except.ok [mkSection ("intro") 0 8, mkSection ("chorus") 20 32,
                   mkSection ("outro") 32 40] := by decide
    have hrecalc : recalculateTimeline
        [mkSection ("intro") 0 8, mkSection ("chorus") 20 32, mkSection ("outro") 32 40] =
        [mkSection ("intro") 0 8, mkSection ("chorus") 8 20, mkSection ("outro") 20 28] := by
      norm_num [recalculateTimeline, recalcGo, round3, pyRound, Section.duration, mkSection]
    simp only [executeOperation, hcore, Except.map, hrecalc]
  exact c6_timeline_invariants scenarioArrangement (Operation.remove ("verse"))
    [mkSection ("intro") 0 8, mkSection ("chorus") 8 20, mkSection ("outro") 20 28]
    5 100 4000 (by norm_num) h

/-- C9: a prompt matching none of the four templates parses to
`unknown{raw_prompt}`, carrying the original prompt verbatim (not the
lower-cased, stripped copy used for matching), and `rearrange` reports that
parsed operation in its result rather than throwing. -/
theorem c9_unknown_prompt_verbatim (arr : Arrangement) (prompt : String)
    (start_time : ℚ) (sr : ℕ) (total : ℤ)
    (h1 : matchRe reFuel duplicateRe (pyStrip (pyLower prompt)).data = none)
    (h2 : matchRe reFuel removeRe (pyStrip (pyLower prompt)).data = none)
    (h3 : matchRe reFuel swapRe (pyStrip (pyLower prompt)).data = none)
    (h4 : matchRe reFuel extendRe (pyStrip (pyLower prompt)).data = none) :
    parsePrompt prompt arr = Operation.unknown prompt ∧
    ∃ r, rearrange arr prompt start_time sr total = Except.ok r ∧
      r.operation = Operation.unknown prompt := by
  have hp : parsePrompt prompt arr = Operation.unknown prompt := by
    simp only [parsePrompt, h1, h2, h3, h4]
  refine ⟨hp, ?_⟩
  rcases hi : insertArrangement (recalculateTimeline arr.sections) start_time sr total with
    ⟨clips, fin⟩
  refine ⟨{ operation := Operation.unknown prompt, original_sections := arr.sections,
            new_arrangement := recalculateTimeline arr.sections, track_clips := clips,
            track_total_duration := fin - start_time }, ?_, rfl⟩
  simp only [rearrange, hp, executeOperation, executeCore, Except.map, hi]

/-- C9 witness: "make it louder" matches no template and flows through
`rearrange` as `unknown{"make it louder"}`. -/
theorem c9_unknown_prompt_verbatim_witness :
    parsePrompt ("make it louder") scenarioArrangement =
      Operation.unknown ("make it louder") ∧
    ∃ r, rearrange scenarioArrangement ("make it louder") 0 100 4000 = Except.ok r ∧
      r.operation = Operation.unknown ("make it louder") :=
  c9_unknown_prompt_verbatim scenarioArrangement ("make it louder") 0 100 4000
    (by decide) (by decide) (by decide) (by decide)

theorem pyRound_intCast (z : ℤ) : pyRound (z : ℚ) = z := by
  simp [pyRound, Int.floor_intCast]

theorem round3_aligned {q : ℚ} {z : ℤ} (h : q * 1000 = z) : round3 q = q := by
  rw [round3, h, pyRound_intCast, div_eq_iff (by norm_num : (1000 : ℚ) ≠ 0)]
  exact h.symm

/-- On a contiguous, millisecond-aligned section list starting at `t`, the
timeline recalculation is the identity. -/
theorem recalcGo_id : ∀ (l : List Section) (t : ℚ),
    (∀ s ∈ l.head?, s.start_time = t) →
    (∀ s ∈ l, (∃ z : ℤ, s.start_time * 1000 = z) ∧ (∃ z : ℤ, s.end_time * 1000 = z)) →
    List.Chain' (fun s u => s.end_time = u.start_time) l →
    recalcGo t l = l := by
  intro l
  induction l with
  | nil => intro t _ _ _; rfl
  | cons s rest ih =>
      intro t hhead halign hchain
      have hst : s.start_time = t := hhead s (by simp)
      obtain ⟨⟨z1, hz1⟩, ⟨z2, hz2⟩⟩ := halign s (by simp)
      have h2 : t + s.duration = s.end_time := by
        rw [← hst, Section.duration]
        ring
      have h1 : round3 t = s.start_time := by rw [← hst]; exact round3_aligned hz1
      obtain ⟨hcons, hrest⟩ := List.chain'_cons'.1 hchain
      simp only [recalcGo, h2, round3_aligned hz2, h1]
      show s :: recalcGo s.end_time rest = s :: rest
      rw [ih s.end_time (fun u hu => (hcons u hu).symm)
        (fun u hu => halign u (List.mem_cons_of_mem _ hu)) hrest]

/-- When every section's clamped sample range is provably nonempty, the
insertion loop emits one clip per section, in order. -/
theorem insertGo_all (sr : ℕ) (total : ℤ) :
    ∀ (l : List Section) (off : ℚ),
      (∀ s ∈ l, 0 ≤ s.start_time ∧
        pyInt (s.start_time * sr) < pyInt (s.end_time * sr) ∧
        pyInt (s.start_time * sr) < total) →
      (insertGo sr total l off).1.map Clip.label = l.map Section.label := by
  intro l
  induction l with
  | nil => intro off _; rfl
  | cons s rest ih =>
      intro off hall
      obtain ⟨hs0, hsAB, hsT⟩ := hall s (by simp)
      have hA : 0 ≤ pyInt (s.start_time * sr) :=
        pyInt_nonneg (mul_nonneg hs0 (by positivity))
      have hguard : ¬ (max 0 (min (pyInt (s.start_time * sr)) total) ≥
          max (max 0 (min (pyInt (s.start_time * sr)) total))
            (min (pyInt (s.end_time * sr)) total)) := by omega
      simp only [insertGo, if_neg hguard, List.map_cons]
      rw [ih (off + s.duration) (fun u hu => hall u (List.mem_cons_of_mem _ hu))]

/-- C10: when the prompt parses to an Unknown operation, the executor
applies no edit and `rearrange` nevertheless proceeds: for an
analysis-shaped Arrangement (contiguous millisecond-aligned sections
starting at 0, each with a nonempty clamped sample range), the call succeeds,
the reported new arrangement is the original section sequence unchanged, and
every Section is rendered as one clip in the original order. -/
theorem c10_unknown_renders_all (arr : Arrangement) (prompt : String)
    (start_time : ℚ) (sr : ℕ) (total : ℤ)
    (hunk : parsePrompt prompt arr = Operation.unknown prompt)
    (hfirst : ∀ s ∈ arr.sections.head?, s.start_time = 0)
    (halign : ∀ s ∈ arr.sections,
      (∃ z : ℤ, s.start_time * 1000 = z) ∧ (∃ z : ℤ, s.end_time * 1000 = z))
    (hchain : List.Chain' (fun s u => s.end_time = u.start_time) arr.sections)
    (hslice : ∀ s ∈ arr.sections, 0 ≤ s.start_time ∧
      pyInt (s.start_time * sr) < pyInt (s.end_time * sr) ∧
      pyInt (s.start_time * sr) < total) :
    ∃ r, rearrange arr prompt start_time sr total = Except.ok r ∧
      r.new_arrangement = arr.sections ∧
      r.track_clips.map Clip.label = arr.sections.map Section.label := by
  have hid : recalculateTimeline arr.sections = arr.sections :=
    recalcGo_id arr.sections 0 hfirst halign hchain
  rcases hi : insertArrangement arr.sections start_time sr total with ⟨clips, fin⟩
  refine ⟨{ operation := Operation.unknown prompt, original_sections := arr.sections,
            new_arrangement := arr.sections, track_clips := clips,
            track_total_duration := fin - start_time }, ?_, rfl, ?_⟩
  · simp only [rearrange, hunk, executeOperation, executeCore, Except.map, hid, hi]
  · have hall := insertGo_all sr total arr.sections start_time hslice
    rw [insertArrangement] at hi
    simp only [hi] at hall
    exact hall

/-- C10 witness: the no-op path on the scenario arrangement with the prompt
"make it louder" renders all four sections unchanged. -/
theorem c10_unknown_renders_all_witness :
    ∃ r, rearrange scenarioArrangement ("make it louder") 0 100 4000 = Except.ok r ∧
      r.new_arrangement = scenarioArrangement.sections ∧
      r.track_clips.map Clip.label = scenarioArrangement.sections.map Section.label :=
  c10_unknown_renders_all scenarioArrangement ("make it louder") 0 100 4000
    (by decide)
    (by intro s hs; simp only [scenarioArrangement] at hs; simp at hs; rw [← hs]; rfl)
    (by
      intro s hs
      simp only [scenarioArrangement, mkSection, List.mem_cons] at hs
      rcases hs with rfl | rfl | rfl | rfl | h
      · exact ⟨⟨0, by norm_num⟩, ⟨8000, by norm_num⟩⟩
      · exact ⟨⟨8000, by norm_num⟩, ⟨20000, by norm_num⟩⟩
      · exact ⟨⟨20000, by norm_num⟩, ⟨32000, by norm_num⟩⟩
      · exact ⟨⟨32000, by norm_num⟩, ⟨40000, by norm_num⟩⟩
      · cases h)
    (by
      simp only [scenarioArrangement, mkSection]
      norm_num [List.chain'_cons])
    (by
      intro s hs
      simp only [scenarioArrangement, mkSection, List.mem_cons] at hs
      rcases hs with rfl | rfl | rfl | rfl | h
      · exact ⟨by norm_num, by norm_num [pyInt], by norm_num [pyInt]⟩
      · exact ⟨by norm_num, by norm_num [pyInt], by norm_num [pyInt]⟩
      · exact ⟨by norm_num, by norm_num [pyInt], by norm_num [pyInt]⟩
      · exact ⟨by norm_num, by norm_num [pyInt], by norm_num [pyInt]⟩
      · cases h)

theorem pyRound_ge_floor (q : ℚ) : ⌊q⌋ ≤ pyRound q := by
  rw [pyRound]
  split_ifs <;> omega

theorem pyRound_le_floor_add_one (q : ℚ) : pyRound q ≤ ⌊q⌋ + 1 := by
  rw [pyRound]
  split_ifs <;> omega

/-- Two times at least 2 ms apart stay strictly ordered after rounding to
milliseconds (1 ms is not quite enough because Python's round-half-to-even
can map half-millisecond ties on both sides to the same grid point). -/
theorem round3_lt_of_sep {a b : ℚ} (h : a + 2/1000 ≤ b) : round3 a < round3 b := by
  have h2 : ⌊a * 1000⌋ + 2 ≤ ⌊b * 1000⌋ := by
    calc ⌊a * 1000⌋ + 2 = ⌊a * 1000 + ((2 : ℤ) : ℚ)⌋ := (Int.floor_add_int _ _).symm
      _ ≤ ⌊b * 1000⌋ := Int.floor_mono (by push_cast; linarith)
  have h3 : pyRound (a * 1000) < pyRound (b * 1000) := by
    have ha := pyRound_le_floor_add_one (a * 1000)
    have hb := pyRound_ge_floor (b * 1000)
    omega
  have h4 : ((pyRound (a * 1000) : ℚ)) < ((pyRound (b * 1000) : ℚ)) := by exact_mod_cast h3
  rw [round3, round3]
  linarith

theorem sorted_le_getLast :
    ∀ {l : List ℚ}, List.Sorted (fun a b => a ≤ b) l → ∀ x ∈ l, ∀ y ∈ l.getLast?, x ≤ y := by
  intro l
  induction l with
  | nil => intro _ x hx; cases hx
  | cons h t ih =>
      intro hs x hx y hy
      cases t with
      | nil =>
          simp only [List.getLast?_singleton, Option.mem_def, Option.some.injEq] at hy
          simp only [List.mem_singleton] at hx
          rw [hx, ← hy]
      | cons h2 t2 =>
          rw [List.getLast?_cons_cons] at hy
          rcases List.mem_cons.1 hx with rfl | hx'
          · exact List.rel_of_sorted_cons hs y (List.mem_of_mem_getLast? hy)
          · exact ih hs.of_cons x hx' y hy

theorem sorted_head_eq {l : List ℚ} {x : ℚ} (hs : List.Sorted (fun a b => a ≤ b) l)
    (hm : x ∈ l) (hlb : ∀ y ∈ l, x ≤ y) : ∀ y ∈ l.head?, y = x := by
  intro y hy
  cases l with
  | nil => cases hy
  | cons h t =>
      simp only [List.head?_cons, Option.mem_def, Option.some.injEq] at hy
      rcases List.mem_cons.1 hm with rfl | hx
      · rw [← hy]
      · rw [← hy]
        exact le_antisymm (List.rel_of_sorted_cons hs x hx) (hlb h (List.mem_cons_self _ _))

theorem sorted_getLast_eq {l : List ℚ} {x : ℚ} (hs : List.Sorted (fun a b => a ≤ b) l)
    (hm : x ∈ l) (hub : ∀ y ∈ l, y ≤ x) : ∀ y ∈ l.getLast?, y = x := by
  intro y hy
  exact le_antisymm (hub y (List.mem_of_mem_getLast? hy)) (sorted_le_getLast hs x hm y hy)

theorem nearestBeat_mem (b : ℚ) : ∀ (l : List ℚ), l ≠ [] → nearestBeat b l ∈ l := by
  intro l hl
  cases l with
  | nil => exact absurd rfl hl
  | cons bt rest =>
      rw [nearestBeat]
      have key : ∀ (xs : List ℚ) (acc : ℚ), acc ∈ bt :: rest → (∀ x ∈ xs, x ∈ bt :: rest) →
          xs.foldl (fun best x => if |x - b| < |best - b| then x else best) acc ∈ bt :: rest := by
        intro xs
        induction xs with
        | nil => intro acc hacc _; exact hacc
        | cons x xs ih =>
            intro acc hacc hxs
            simp only [List.foldl_cons]
            by_cases hx : |x - b| < |acc - b|
            · rw [if_pos hx]
              exact ih x (hxs x (List.mem_cons_self _ _))
                (fun z hz => hxs z (List.mem_cons_of_mem _ hz))
            · rw [if_neg hx]
              exact ih acc hacc (fun z hz => hxs z (List.mem_cons_of_mem _ hz))
      exact key rest bt (List.mem_cons_self _ _) (fun z hz => List.mem_cons_of_mem _ hz)

theorem snap_foldl_mem {beat_times : List ℚ} :
    ∀ (xs : List ℚ) (acc : List ℚ) (x : ℚ),
      x ∈ xs.foldl (fun acc b =>
        let nearest := nearestBeat b beat_times
        if nearest ∈ acc then acc else acc ++ [nearest]) acc →
      x ∈ acc ∨ ∃ b, x = nearestBeat b beat_times := by
  intro xs
  induction xs with
  | nil => intro acc x hx; exact Or.inl hx
  | cons b bs ih =>
      intro acc x hx
      simp only [List.foldl_cons] at hx
      by_cases hb : nearestBeat b beat_times ∈ acc
      · rw [if_pos hb] at hx
        exact ih acc x hx
      · rw [if_neg hb] at hx
        rcases ih _ x hx with hmem | hnb
        · rcases List.mem_append.1 hmem with h1 | h1
          · exact Or.inl h1
          · exact Or.inr ⟨b, (List.mem_singleton.1 h1)⟩
        · exact Or.inr hnb

theorem snap_foldl_acc_mem {beat_times : List ℚ} :
    ∀ (xs : List ℚ) (acc : List ℚ) (x : ℚ), x ∈ acc →
      x ∈ xs.foldl (fun acc b =>
        let nearest := nearestBeat b beat_times
        if nearest ∈ acc then acc else acc ++ [nearest]) acc := by
  intro xs
  induction xs with
  | nil => intro acc x hx; exact hx
  | cons b bs ih =>
      intro acc x hx
      simp only [List.foldl_cons]
      by_cases hb : nearestBeat b beat_times ∈ acc
      · rw [if_pos hb]; exact ih acc x hx
      · rw [if_neg hb]; exact ih _ x (List.mem_append_left _ hx)

/-- The assembled, snapped, deduplicated, sorted boundary list: it starts at
0, ends at `duration`, and is strictly increasing, provided the candidate
boundaries are distinct interior points and the beat grid lies within the
track. -/
theorem finalBoundaries_spec (boundary_times beat_times : List ℚ) (duration : ℚ)
    (hnd : boundary_times.Nodup)
    (hbt : ∀ b ∈ boundary_times, 0 < b ∧ b < duration)
    (hbeat : ∀ t ∈ beat_times, 0 ≤ t ∧ t ≤ duration)
    (hdur : 0 < duration) :
    (∀ y ∈ (finalBoundaries boundary_times beat_times duration).head?, y = 0) ∧
    (∀ y ∈ (finalBoundaries boundary_times beat_times duration).getLast?, y = duration) ∧
    List.Chain' (fun a b => a < b) (finalBoundaries boundary_times beat_times duration) ∧
    finalBoundaries boundary_times beat_times duration ≠ [] := by
  rw [finalBoundaries]
  by_cases hbe : beat_times.isEmpty
  · rw [if_pos hbe]
    have hsort : List.Sorted (fun a b => a ≤ b)
        (boundary_times.mergeSort (fun a b => a ≤ b)) := by
      simpa using List.sorted_mergeSort' boundary_times
    have hmem : ∀ x ∈ boundary_times.mergeSort (fun a b => a ≤ b), 0 < x ∧ x < duration := by
      intro x hx
      exact hbt x ((List.mergeSort_perm boundary_times _).mem_iff.1 hx)
    have hnd' : (boundary_times.mergeSort (fun a b => a ≤ b)).Nodup :=
      ((List.mergeSort_perm boundary_times _).nodup_iff).2 hnd
    refine ⟨by simp, ?_, ?_, by simp⟩
    · intro y hy
      simp only [List.getLast?_append] at hy
      exact (by simpa using hy : duration = y).symm
    · rw [List.chain'_iff_pairwise]
      refine List.pairwise_cons.2 ⟨?_, ?_⟩
      · intro y hy
        rcases List.mem_append.1 hy with h1 | h1
        · exact (hmem y h1).1
        · rw [List.mem_singleton.1 h1]; exact hdur
      · refine List.pairwise_append.2 ⟨hsort.lt_of_le hnd', by simp, ?_⟩
        intro a ha b hb
        rw [List.mem_singleton.1 hb]
        exact (hmem a ha).2
  · rw [if_neg hbe]
    have hbene : beat_times ≠ [] := by simpa [List.isEmpty_iff] using hbe
    set snapped := (((([0] ++ boundary_times.mergeSort (fun a b => a ≤ b) ++
        [duration]).drop 1).dropLast).foldl (fun acc b =>
          let nearest := nearestBeat b beat_times
          if nearest ∈ acc then acc else acc ++ [nearest]) [0]) with hsnap
    have h0 : (0 : ℚ) ∈ snapped := by
      rw [hsnap]
      exact snap_foldl_acc_mem _ _ _ (List.mem_singleton.2 rfl)
    have hrange : ∀ x ∈ snapped ++ [duration], 0 ≤ x ∧ x ≤ duration := by
      intro x hx
      rcases List.mem_append.1 hx with h1 | h1
      · rw [hsnap] at h1
        rcases snap_foldl_mem _ _ _ h1 with h2 | ⟨b, h2⟩
        · rw [List.mem_singleton.1 h2]
          exact ⟨le_refl 0, le_of_lt hdur⟩
        · rw [h2]
          exact hbeat _ (nearestBeat_mem b beat_times hbene)
      · rw [List.mem_singleton.1 h1]
        exact ⟨le_of_lt hdur, le_refl duration⟩
    have hperm : List.Perm (((snapped ++ [duration]).dedup).mergeSort (fun a b => a ≤ b))
        ((snapped ++ [duration]).dedup) := List.mergeSort_perm _ _
    have hsort : List.Sorted (fun a b => a ≤ b)
        (((snapped ++ [duration]).dedup).mergeSort (fun a b => a ≤ b)) := by
      simpa using List.sorted_mergeSort' ((snapped ++ [duration]).dedup)
    have hnd' : (((snapped ++ [duration]).dedup).mergeSort (fun a b => a ≤ b)).Nodup :=
      (hperm.nodup_iff).2 (List.nodup_dedup _)
    have hmem : ∀ x, x ∈ ((snapped ++ [duration]).dedup).mergeSort (fun a b => a ≤ b) ↔
        x ∈ snapped ++ [duration] := by
      intro x
      rw [hperm.mem_iff, List.mem_dedup]
    refine ⟨?_, ?_, ?_, ?_⟩
    · exact sorted_head_eq hsort ((hmem 0).2 (List.mem_append_left _ h0))
        (fun y hy => (hrange y ((hmem y).1 hy)).1)
    · exact sorted_getLast_eq hsort
        ((hmem duration).2 (List.mem_append_right _ (List.mem_singleton.2 rfl)))
        (fun y hy => (hrange y ((hmem y).1 hy)).2)
    · rw [List.chain'_iff_pairwise]
      exact hsort.lt_of_le hnd'
    · exact List.ne_nil_of_mem ((hmem 0).2 (List.mem_append_left _ h0))

theorem disambiguate_snd_times (acc : List Section) (base : String) :
    ((disambiguate acc base).2).map (fun s => (s.start_time, s.end_time)) =
      acc.map (fun s => (s.start_time, s.end_time)) := by
  rw [disambiguate]
  split_ifs
  · simp only [List.map_map]
    congr 1
    funext s
    by_cases h : s.label = base <;> simp [h]
  · rfl

theorem buildSections_times (n : ℕ) (median std : ℚ) :
    ∀ (ps : List ((ℚ × ℚ) × ℚ)) (i : ℕ) (acc : List Section),
      (buildSections n median std i ps acc).map (fun s => (s.start_time, s.end_time)) =
        acc.map (fun s => (s.start_time, s.end_time)) ++
          ps.map (fun p => (round3 p.1.1, round3 p.1.2)) := by
  intro ps
  induction ps with
  | nil => intro i acc; simp [buildSections]
  | cons p rest ih =>
      intro i acc
      rcases p with ⟨⟨s, e⟩, en⟩
      rcases hd : disambiguate acc (baseLabelOf i n (e - s) en median std) with ⟨lab, acc'⟩
      simp only [buildSections, hd]
      rw [ih]
      have : acc'.map (fun s => (s.start_time, s.end_time)) =
          acc.map (fun s => (s.start_time, s.end_time)) := by
        have := disambiguate_snd_times acc (baseLabelOf i n (e - s) en median std)
        rw [hd] at this
        exact this
      simp [this]

theorem zip_drop_chain : ∀ (l : List ℚ),
    List.Chain' (fun p q : ℚ × ℚ => p.2 = q.1) (l.zip (l.drop 1)) := by
  intro l
  induction l with
  | nil => simp
  | cons a tl ih =>
      cases tl with
      | nil => simp
      | cons b t =>
          show List.Chain' _ ((a, b) :: (b :: t).zip t)
          rw [List.chain'_cons']
          refine ⟨?_, by simpa using ih⟩
          intro q hq
          cases t with
          | nil => cases hq
          | cons c t2 =>
              simp only [List.zip_cons_cons, List.head?_cons, Option.mem_def,
                Option.some.injEq] at hq
              rw [← hq]

theorem zip_drop_rel {R : ℚ → ℚ → Prop} :
    ∀ {l : List ℚ}, List.Chain' R l → ∀ p ∈ l.zip (l.drop 1), R p.1 p.2 := by
  intro l
  induction l with
  | nil => intro _ p hp; cases hp
  | cons a tl ih =>
      intro hch p hp
      cases tl with
      | nil => cases hp
      | cons b t =>
          rw [List.chain'_cons] at hch
          rcases List.mem_cons.1 (by simpa using hp) with rfl | hp'
          · exact hch.1
          · exact ih hch.2 p (by simpa using hp')

theorem zip_drop_getLast :
    ∀ (l : List ℚ) (p : ℚ × ℚ), (l.zip (l.drop 1)).getLast? = some p →
      l.getLast? = some p.2 := by
  intro l
  induction l with
  | nil => intro p hp; cases hp
  | cons a tl ih =>
      intro p hp
      cases tl with
      | nil => cases hp
      | cons b t =>
          cases t with
          | nil =>
              simp only [List.drop_succ_cons, List.drop_zero, List.zip_cons_cons,
                List.zip_nil_right, List.getLast?_singleton, Option.some.injEq] at hp
              rw [← hp]
              rfl
          | cons c t2 =>
              have hstep : ((a :: b :: c :: t2).zip ((a :: b :: c :: t2).drop 1)).getLast? =
                  (((b :: c :: t2)).zip ((b :: c :: t2).drop 1)).getLast? := by
                show ((a, b) :: (b :: c :: t2).zip (c :: t2)).getLast? = _
                show ((a, b) :: (b, c) :: (c :: t2).zip t2).getLast? = _
                rw [List.getLast?_cons_cons]
                rfl
              rw [hstep] at hp
              rw [List.getLast?_cons_cons]
              exact ih p hp

/-- C7 counterexample: a track of 10.0006 seconds with no interior boundary
candidates yields a single Section whose `end_time` is the rounded 10.001,
not `total_duration = 10.0006`: the partition invariant "the last Section
ends at total_duration" fails because `_detect_sections` rounds the stored
times to 3 decimals while `total_duration` stays unrounded. -/
theorem c7_partition_counterexample :
    detectSections (fun _ => 0) [] [] (100006/10000) [] 22050 =
      [{ label := ("intro"), start_time := 0, end_time := 10001/1000,
         confidence := 1/2, energy := 0 }] ∧
    (10001 : ℚ)/1000 ≠ 100006/10000 := by
  constructor
  · norm_num [detectSections, finalBoundaries, buildSections, disambiguate, baseLabelOf,
      segmentEnergy, timeToFrames, medianQ, varQ, meanQ, pySlice, round3, round2, round4,
      pyRound, List.mergeSort_nil, pyStartsWith]
  · norm_num

/-- C7 (amended): for distinct interior boundary candidates and an in-range
beat grid, the detected Sections tile the track contiguously in sorted
order: the sequence is nonempty, the first Section starts at 0, consecutive
Sections meet exactly (`end_time = start_time` of the next), every Section
satisfies `start_time < end_time` provided the final snapped boundaries are
at least 2 ms apart, and the last Section ends at `round3 total_duration` —
the 3-decimal rounding of the track duration, not the duration itself
(`c7_partition_counterexample` shows exact equality fails). -/
theorem c7_partition_amended (sqrtQ : ℚ → ℚ) (boundary_times beat_times : List ℚ)
    (duration : ℚ) (rms : List ℚ) (sr : ℕ)
    (hnd : boundary_times.Nodup)
    (hbt : ∀ b ∈ boundary_times, 0 < b ∧ b < duration)
    (hbeat : ∀ t ∈ beat_times, 0 ≤ t ∧ t ≤ duration)
    (hdur : 0 < duration)
    (hsep : List.Chain' (fun a b => a + 2/1000 ≤ b)
      (finalBoundaries boundary_times beat_times duration)) :
    detectSections sqrtQ boundary_times beat_times duration rms sr ≠ [] ∧
    (∀ s ∈ (detectSections sqrtQ boundary_times beat_times duration rms sr).head?,
      s.start_time = 0) ∧
    (∀ s ∈ (detectSections sqrtQ boundary_times beat_times duration rms sr).getLast?,
      s.end_time = round3 duration) ∧
    List.Chain' (fun s u => s.end_time = u.start_time)
      (detectSections sqrtQ boundary_times beat_times duration rms sr) ∧
    (∀ s ∈ detectSections sqrtQ boundary_times beat_times duration rms sr,
      s.start_time < s.end_time) := by
  obtain ⟨hhead, hlast, hchain, hne⟩ :=
    finalBoundaries_spec boundary_times beat_times duration hnd hbt hbeat hdur
  obtain ⟨b0, tl, hB⟩ : ∃ b0 tl, finalBoundaries boundary_times beat_times duration =
      b0 :: tl := by
    rcases hB : finalBoundaries boundary_times beat_times duration with _ | ⟨b0, tl⟩
    · exact absurd hB hne
    · exact ⟨b0, tl, rfl⟩
  have hb0 : b0 = 0 := by
    have := hhead b0 (by rw [hB]; rfl)
    exact this
  obtain ⟨b1, rest, htl⟩ : ∃ b1 rest, tl = b1 :: rest := by
    rcases htl : tl with _ | ⟨b1, rest⟩
    · exfalso
      have := hlast b0 (by rw [hB, htl]; rfl)
      rw [hb0] at this
      exact absurd this.symm (ne_of_gt hdur)
    · exact ⟨b1, rest, rfl⟩
  rw [htl] at hB
  rw [hb0] at hB
  have hspans_head : ((finalBoundaries boundary_times beat_times duration).zip
      ((finalBoundaries boundary_times beat_times duration).drop 1)) =
      ((0 : ℚ), b1) :: ((b1 :: rest).zip rest) := by
    rw [hB]
    rfl
  have hsecs : detectSections sqrtQ boundary_times beat_times duration rms sr =
      buildSections
        (((finalBoundaries boundary_times beat_times duration).zip
          ((finalBoundaries boundary_times beat_times duration).drop 1)).map
            (fun p => segmentEnergy rms sr p.1 p.2)).length
        (medianQ (((finalBoundaries boundary_times beat_times duration).zip
          ((finalBoundaries boundary_times beat_times duration).drop 1)).map
            (fun p => segmentEnergy rms sr p.1 p.2)))
        (sqrtQ (varQ (((finalBoundaries boundary_times beat_times duration).zip
          ((finalBoundaries boundary_times beat_times duration).drop 1)).map
            (fun p => segmentEnergy rms sr p.1 p.2))))
        0
        (((finalBoundaries boundary_times beat_times duration).zip
          ((finalBoundaries boundary_times beat_times duration).drop 1)).zip
          (((finalBoundaries boundary_times beat_times duration).zip
            ((finalBoundaries boundary_times beat_times duration).drop 1)).map
              (fun p => segmentEnergy rms sr p.1 p.2)))
        [] := by
    rw [detectSections]
    rw [if_neg]
    rw [List.isEmpty_iff, List.map_eq_nil_iff, hspans_head]
    exact List.cons_ne_nil _ _
  have hfuse : ∀ (l : List (ℚ × ℚ)) (g : ℚ × ℚ → ℚ),
      (l.zip (l.map g)).map (fun p => (round3 p.1.1, round3 p.1.2)) =
        l.map (fun p => (round3 p.1, round3 p.2)) := by
    intro l g
    induction l with
    | nil => rfl
    | cons x xs ih => simp [ih]
  have htimes : (detectSections sqrtQ boundary_times beat_times duration rms sr).map
      (fun s => (s.start_time, s.end_time)) =
      ((finalBoundaries boundary_times beat_times duration).zip
        ((finalBoundaries boundary_times beat_times duration).drop 1)).map
          (fun p => (round3 p.1, round3 p.2)) := by
    rw [hsecs, buildSections_times, hfuse]
    rfl
  refine ⟨?_, ?_, ?_, ?_, ?_⟩
  · intro hnil
    rw [hnil] at htimes
    rw [hspans_head] at htimes
    exact List.cons_ne_nil _ _ htimes.symm
  · intro s hs
    have h1 := congrArg List.head? htimes
    rw [List.head?_map, List.head?_map, hspans_head] at h1
    rw [(Option.mem_def.1 hs : _ = some s)] at h1
    have h2 : (s.start_time, s.end_time) = (round3 0, round3 b1) := by
      simpa using h1
    have h3 : s.start_time = round3 0 := by
      have := congrArg Prod.fst h2
      simpa using this
    rw [h3]
    exact round3_aligned (z := 0) (by norm_num)
  · intro s hs
    have h1 := congrArg List.getLast? htimes
    rw [List.getLast?_map, List.getLast?_map] at h1
    rw [(Option.mem_def.1 hs : _ = some s)] at h1
    rcases Option.map_eq_some'.1 h1.symm with ⟨p, hp, hps⟩
    have hlastp := zip_drop_getLast _ p hp
    have hpd : p.2 = duration := hlast p.2 hlastp
    have h3 : s.end_time = round3 p.2 := by
      have := congrArg Prod.snd hps
      simpa using this.symm
    rw [h3, hpd]
  · have hchainSpans := zip_drop_chain (finalBoundaries boundary_times beat_times duration)
    have hchainR : List.Chain' (fun p q : ℚ × ℚ => round3 p.2 = round3 q.1)
        ((finalBoundaries boundary_times beat_times duration).zip
          ((finalBoundaries boundary_times beat_times duration).drop 1)) :=
      hchainSpans.imp (fun a b h => congrArg round3 h)
    have hchainM : List.Chain' (fun x y : ℚ × ℚ => x.2 = y.1)
        (((finalBoundaries boundary_times beat_times duration).zip
          ((finalBoundaries boundary_times beat_times duration).drop 1)).map
            (fun p => (round3 p.1, round3 p.2))) := by
      rw [List.chain'_map]
      exact hchainR
    rw [← htimes, List.chain'_map] at hchainM
    exact hchainM
  · intro s hs
    have h1 : (s.start_time, s.end_time) ∈
        ((finalBoundaries boundary_times beat_times duration).zip
          ((finalBoundaries boundary_times beat_times duration).drop 1)).map
            (fun p => (round3 p.1, round3 p.2)) := by
      rw [← htimes]
      exact List.mem_map_of_mem _ hs
    rcases List.mem_map.1 h1 with ⟨p, hp, hps⟩
    have hsep' : p.1 + 2/1000 ≤ p.2 := zip_drop_rel hsep p hp
    have hlt : round3 p.1 < round3 p.2 := round3_lt_of_sep hsep'
    have h2 : round3 p.1 = s.start_time := congrArg Prod.fst hps
    have h3 : round3 p.2 = s.end_time := congrArg Prod.snd hps
    rw [← h2, ← h3]
    exact hlt

/-- C7 witness: one interior boundary at 4 s in a 10-second track (no beat
grid) yields two sections `[0,4][4,10]` with all the amended partition
properties. -/
theorem c7_partition_amended_witness :
    detectSections (fun _ => 0) [4] [] 10 [] 100 ≠ [] ∧
    (∀ s ∈ (detectSections (fun _ => 0) [4] [] 10 [] 100).head?, s.start_time = 0) ∧
    (∀ s ∈ (detectSections (fun _ => 0) [4] [] 10 [] 100).getLast?,
      s.end_time = round3 10) ∧
    List.Chain' (fun s u => s.end_time = u.start_time)
      (detectSections (fun _ => 0) [4] [] 10 [] 100) ∧
    (∀ s ∈ detectSections (fun _ => 0) [4] [] 10 [] 100, s.start_time < s.end_time) :=
  c7_partition_amended (fun _ => 0) [4] [] 10 [] 100
    (by decide)
    (by intro b hb; rw [List.mem_singleton.1 hb]; norm_num)
    (by intro t ht; cases ht)
    (by norm_num)
    (by
      have hfb : finalBoundaries [4] [] 10 = [0, 4, 10] := by
        norm_num [finalBoundaries]
      rw [hfb]
      norm_num [List.chain'_cons])

theorem string_data_inj {s t : String} (h : s.data = t.data) : s = t := by
  cases s
  cases t
  exact congrArg String.mk h

theorem pyStartsWith_iff {s p : String} : pyStartsWith s p = true ↔ p.data <+: s.data := by
  simp [pyStartsWith, List.isPrefixOf_iff_prefix]

theorem pyStartsWith_self (b : String) : pyStartsWith b b = true :=
  pyStartsWith_iff.2 (List.prefix_refl _)

theorem natDigits_ne_nil (n : ℕ) : natDigits n ≠ [] := by
  unfold natDigits
  split
  · simp
  · simp

theorem natDigits_length_pos (n : ℕ) : 0 < (natDigits n).length :=
  List.length_pos.2 (natDigits_ne_nil n)

theorem digit_char_inj {a b : ℕ} (ha : a < 10) (hb : b < 10)
    (h : Char.ofNat (48 + a) = Char.ofNat (48 + b)) : a = b := by
  have key : ∀ a' < 10, ∀ b' < 10, Char.ofNat (48 + a') = Char.ofNat (48 + b') → a' = b' := by
    decide
  exact key a ha b hb h

theorem natDigits_inj : ∀ m n : ℕ, natDigits m = natDigits n → m = n := by
  intro m
  induction m using Nat.strong_induction_on with
  | _ m ih =>
    intro n h
    by_cases hm : m < 10 <;> by_cases hn : n < 10
    · unfold natDigits at h
      rw [dif_pos hm, dif_pos hn] at h
      simp only [List.cons.injEq, and_true] at h
      exact digit_char_inj hm hn h
    · unfold natDigits at h
      rw [dif_pos hm, dif_neg hn] at h
      have hlen := congrArg List.length h
      simp only [List.length_append, List.length_cons, List.length_nil] at hlen
      have := natDigits_length_pos (n / 10)
      omega
    · unfold natDigits at h
      rw [dif_neg hm, dif_pos hn] at h
      have hlen := congrArg List.length h
      simp only [List.length_append, List.length_cons, List.length_nil] at hlen
      have := natDigits_length_pos (m / 10)
      omega
    · unfold natDigits at h
      rw [dif_neg hm, dif_neg hn] at h
      obtain ⟨h1, h2⟩ := List.append_inj' h (by simp)
      have hdiv : m / 10 = n / 10 :=
        ih (m / 10) (Nat.div_lt_self (by omega) (by omega)) (n / 10) h1
      simp only [List.cons.injEq, and_true] at h2
      have hmod : m % 10 = n % 10 :=
        digit_char_inj (Nat.mod_lt m (by omega)) (Nat.mod_lt n (by omega)) h2
      omega

theorem natDigits_one : natDigits 1 = [Char.ofNat 49] := by
  unfold natDigits
  norm_num

theorem sufLabel_data (b : String) (k : ℕ) :
    (b ++ "_" ++ natRepr k).data = (b.data ++ ['_']) ++ natDigits k := rfl

theorem append_one (b : String) : b ++ "_1" = b ++ "_" ++ natRepr 1 := by
  apply string_data_inj
  rw [sufLabel_data, natDigits_one]
  show b.data ++ ['_', Char.ofNat 49] = (b.data ++ ['_']) ++ [Char.ofNat 49]
  simp

theorem pyStartsWith_suf (b : String) (k : ℕ) :
    pyStartsWith (b ++ "_" ++ natRepr k) b = true := by
  apply pyStartsWith_iff.2
  rw [sufLabel_data, List.append_assoc]
  exact List.prefix_append _ _

theorem suf_ne_base (b : String) (k : ℕ) : b ++ "_" ++ natRepr k ≠ b := by
  intro h
  have hd := congrArg (fun s => s.data.length) h
  simp only [sufLabel_data, List.length_append, List.length_cons, List.length_nil] at hd
  have := natDigits_length_pos k
  omega

theorem suf_inj {b : String} {j k : ℕ}
    (h : b ++ "_" ++ natRepr j = b ++ "_" ++ natRepr k) : j = k := by
  have hd := congrArg String.data h
  rw [sufLabel_data, sufLabel_data] at hd
  exact natDigits_inj j k (List.append_cancel_left hd)

theorem vocab_cross : ∀ b ∈ labelVocab, ∀ c ∈ labelVocab, b ≠ c →
    ¬ b.data <+: c.data ∧ ¬ b.data <+: c.data ++ ['_'] ∧
      b.data.length ≤ c.data.length + 1 := by
  decide

theorem prefix_append_iff {α : Type} (x y z : List α) (h : x.length ≤ y.length) :
    x <+: y ++ z ↔ x <+: y := by
  constructor
  · intro hp
    have hx := List.prefix_iff_eq_take.1 hp
    rw [List.take_append_of_le_length h] at hx
    exact List.prefix_iff_eq_take.2 hx
  · exact fun hp => hp.trans (List.prefix_append y z)

theorem sw_base_false {b c : String} (hb : b ∈ labelVocab) (hc : c ∈ labelVocab)
    (hne : b ≠ c) : pyStartsWith c b = false := by
  rw [← Bool.not_eq_true, pyStartsWith_iff]
  exact (vocab_cross b hb c hc hne).1

theorem sw_suf_false {b c : String} (hb : b ∈ labelVocab) (hc : c ∈ labelVocab)
    (hne : b ≠ c) (k : ℕ) : pyStartsWith (c ++ "_" ++ natRepr k) b = false := by
  rw [← Bool.not_eq_true, pyStartsWith_iff, sufLabel_data]
  intro hp
  have hlen : b.data.length ≤ (c.data ++ ['_']).length := by
    have := (vocab_cross b hb c hc hne).2.2
    simp only [List.length_append, List.length_cons, List.length_nil]
    omega
  rw [prefix_append_iff _ _ _ hlen] at hp
  exact (vocab_cross b hb c hc hne).2.1 hp

theorem famCanon_length (b : String) (n : ℕ) : (famCanon b n).length = n := by
  unfold famCanon
  split_ifs with h1 h2
  · simp [h1]
  · simp [h2]
  · simp

theorem famCanon_nodup (b : String) (n : ℕ) : (famCanon b n).Nodup := by
  unfold famCanon
  split_ifs
  · simp
  · simp
  · refine List.Nodup.map ?_ (List.nodup_range n)
    intro j k hjk
    have := suf_inj hjk
    omega

theorem famCanon_mem {b : String} {n : ℕ} {l : String} (h : l ∈ famCanon b n) :
    l = b ∨ ∃ k, l = b ++ "_" ++ natRepr (k + 1) := by
  unfold famCanon at h
  split_ifs at h
  · simp at h
  · simp only [List.mem_singleton] at h
    exact Or.inl h
  · simp only [List.mem_map, List.mem_range] at h
    obtain ⟨k, _, hk⟩ := h
    exact Or.inr ⟨k, hk.symm⟩

theorem labelInv_nodup {L : List String} (h : labelInv L) : L.Nodup := by
  rw [List.nodup_iff_count_le_one]
  intro a
  by_contra hc
  push_neg at hc
  have hmem : a ∈ L := List.count_pos_iff.1 (by omega)
  obtain ⟨b, hb, hsw⟩ := h.1 a hmem
  have hcf : List.count a (famFilter L b) = List.count a L :=
    List.count_filter hsw
  have hnd : (famFilter L b).Nodup := by
    rw [h.2 b hb]
    exact famCanon_nodup b _
  have := List.nodup_iff_count_le_one.1 hnd a
  omega

theorem famFilter_append (L M : List String) (b : String) :
    famFilter (L ++ M) b = famFilter L b ++ famFilter M b := by
  simp [famFilter, List.filter_append]

theorem labelInv_nil : labelInv [] := by
  constructor
  · intro l hl
    simp at hl
  · intro b hb
    simp [famFilter, famCanon]

theorem disambiguate_pos (acc : List Section) (base : String)
    (hpos : 0 < (acc.map Section.label).countP (fun l => pyStartsWith l base)) :
    disambiguate acc base =
      (base ++ "_" ++
         natRepr ((acc.map Section.label).countP (fun l => pyStartsWith l base) + 1),
       acc.map (fun s =>
         if s.label = base then { s with label := base ++ "_1" } else s)) := by
  simp only [disambiguate]
  rw [if_pos hpos]

theorem disambiguate_neg (acc : List Section) (base : String)
    (hneg : ¬ 0 < (acc.map Section.label).countP (fun l => pyStartsWith l base)) :
    disambiguate acc base = (base, acc) := by
  simp only [disambiguate]
  rw [if_neg hneg]

theorem ren_startsWith (base b : String) (hbase : base ∈ labelVocab)
    (hb : b ∈ labelVocab) (l : String) :
    pyStartsWith (if l = base then base ++ "_1" else l) b = pyStartsWith l b := by
  by_cases hl : l = base
  · rw [if_pos hl, hl, append_one]
    by_cases hbb : b = base
    · subst hbb
      rw [pyStartsWith_suf, pyStartsWith_self]
    · rw [sw_suf_false hb hbase hbb, sw_base_false hb hbase hbb]
  · rw [if_neg hl]

theorem famFilter_map_ren (L : List String) (base b : String)
    (hbase : base ∈ labelVocab) (hb : b ∈ labelVocab) :
    famFilter (L.map (fun l => if l = base then base ++ "_1" else l)) b =
      (famFilter L b).map (fun l => if l = base then base ++ "_1" else l) := by
  unfold famFilter
  rw [List.filter_map]
  congr 1
  apply List.filter_congr
  intro l _
  exact ren_startsWith base b hbase hb l

theorem famCanon_map_ren (base : String) (n : ℕ) (hn : 0 < n) :
    (famCanon base n).map (fun l => if l = base then base ++ "_1" else l) =
      (List.range n).map (fun k => base ++ "_" ++ natRepr (k + 1)) := by
  unfold famCanon
  rw [if_neg (by omega)]
  by_cases h1 : n = 1
  · subst h1
    rw [if_pos rfl]
    simp [List.range_succ, append_one]
  · rw [if_neg h1, List.map_map]
    apply List.map_congr_left
    intro k _
    show (if (base ++ "_" ++ natRepr (k + 1)) = base then base ++ "_1"
          else (base ++ "_" ++ natRepr (k + 1))) = base ++ "_" ++ natRepr (k + 1)
    rw [if_neg (suf_ne_base base (k + 1))]

theorem fam_extend (base : String) (n : ℕ) (hn : 0 < n) :
    (List.range n).map (fun k => base ++ "_" ++ natRepr (k + 1)) ++
        [base ++ "_" ++ natRepr (n + 1)] =
      famCanon base (((List.range n).map (fun k => base ++ "_" ++ natRepr (k + 1)) ++
        [base ++ "_" ++ natRepr (n + 1)]).length) := by
  have hlen : (((List.range n).map (fun k => base ++ "_" ++ natRepr (k + 1)) ++
      [base ++ "_" ++ natRepr (n + 1)])).length = n + 1 := by
    simp
  rw [hlen]
  unfold famCanon
  rw [if_neg (by omega), if_neg (by omega), List.range_succ, List.map_append]
  rfl

theorem labelInv_step (acc : List Section) (base : String) {lab : String}
    {acc' : List Section} (hbase : base ∈ labelVocab)
    (hd : disambiguate acc base = (lab, acc'))
    (hinv : labelInv (acc.map Section.label)) :
    labelInv (acc'.map Section.label ++ [lab]) := by
  by_cases hpos : 0 < (acc.map Section.label).countP (fun l => pyStartsWith l base)
  · rw [disambiguate_pos acc base hpos] at hd
    injection hd with h1 h2
    subst h1
    subst h2
    have hmap : (acc.map (fun s =>
          if s.label = base then { s with label := base ++ "_1" } else s)).map
            Section.label =
        (acc.map Section.label).map (fun l => if l = base then base ++ "_1" else l) := by
      rw [List.map_map, List.map_map]
      apply List.map_congr_left
      intro s _
      by_cases h : s.label = base
      · simp [h]
      · simp [h]
    rw [hmap]
    have hcnt : (acc.map Section.label).countP (fun l => pyStartsWith l base) =
        (famFilter (acc.map Section.label) base).length :=
      List.countP_eq_length_filter _ _
    have hnpos : 0 < (famFilter (acc.map Section.label) base).length := by omega
    have hfam : famFilter (acc.map Section.label) base =
        famCanon base (famFilter (acc.map Section.label) base).length :=
      hinv.2 base hbase
    rw [hcnt]
    constructor
    · intro l hl
      rcases List.mem_append.1 hl with hl | hl
      · obtain ⟨l0, hl0, hren⟩ := List.mem_map.1 hl
        by_cases h : l0 = base
        · refine ⟨base, hbase, ?_⟩
          rw [← hren, h, if_pos rfl, append_one]
          exact pyStartsWith_suf base 1
        · rw [← hren, if_neg h]
          exact hinv.1 l0 hl0
      · rw [List.mem_singleton.1 hl]
        exact ⟨base, hbase, pyStartsWith_suf base _⟩
    · intro b hb
      rw [famFilter_append]
      by_cases hbe : b = base
      · subst hbe
        have hnew : famFilter [b ++ "_" ++
            natRepr ((famFilter (acc.map Section.label) b).length + 1)] b =
            [b ++ "_" ++ natRepr ((famFilter (acc.map Section.label) b).length + 1)] := by
          simp [famFilter, pyStartsWith_suf]
        rw [hnew, famFilter_map_ren _ _ _ hbase hb, hfam,
          famCanon_map_ren b _ hnpos, famCanon_length]
        exact fam_extend b _ hnpos
      · have hnew : famFilter [base ++ "_" ++
            natRepr ((famFilter (acc.map Section.label) base).length + 1)] b = [] := by
          simp [famFilter, sw_suf_false hb hbase hbe]
        rw [hnew, List.append_nil, famFilter_map_ren _ _ _ hbase hb]
        have hid : (famFilter (acc.map Section.label) b).map
            (fun l => if l = base then base ++ "_1" else l) =
            famFilter (acc.map Section.label) b := by
          conv_rhs => rw [← List.map_id (famFilter (acc.map Section.label) b)]
          apply List.map_congr_left
          intro l hl
          have hlsw : pyStartsWith l b = true := by
            simp only [famFilter, List.mem_filter] at hl
            exact hl.2
          have hlne : l ≠ base := by
            intro he
            rw [he, sw_base_false hb hbase hbe] at hlsw
            cases hlsw
          rw [if_neg hlne]
          rfl
        rw [hid]
        exact hinv.2 b hb
  · rw [disambiguate_neg acc base hpos] at hd
    injection hd with h1 h2
    subst h1
    subst h2
    have hnil : famFilter (acc.map Section.label) base = [] := by
      have h0 : (famFilter (acc.map Section.label) base).length = 0 := by
        show (List.filter (fun l => pyStartsWith l base)
          (acc.map Section.label)).length = 0
        rw [← List.countP_eq_length_filter]
        omega
      exact List.length_eq_zero.1 h0
    constructor
    · intro l hl
      rcases List.mem_append.1 hl with hl | hl
      · exact hinv.1 l hl
      · rw [List.mem_singleton.1 hl]
        exact ⟨base, hbase, pyStartsWith_self base⟩
    · intro b hb
      rw [famFilter_append]
      by_cases hbe : b = base
      · subst hbe
        rw [hnil]
        have hsingle : famFilter [b] b = [b] := by
          simp [famFilter, pyStartsWith_self]
        rw [hsingle]
        simp [famCanon]
      · have hsingle : famFilter [base] b = [] := by
          simp [famFilter, sw_base_false hb hbase hbe]
        rw [hsingle, List.append_nil]
        exact hinv.2 b hb

theorem baseLabelOf_mem_vocab (i n : ℕ) (d e m s : ℚ) :
    baseLabelOf i n d e m s ∈ labelVocab := by
  unfold baseLabelOf labelVocab
  split_ifs <;> simp

theorem buildSections_inv (n : ℕ) (median std : ℚ) :
    ∀ (ps : List ((ℚ × ℚ) × ℚ)) (i : ℕ) (acc : List Section),
      labelInv (acc.map Section.label) →
      labelInv ((buildSections n median std i ps acc).map Section.label) := by
  intro ps
  induction ps with
  | nil =>
    intro i acc h
    simpa [buildSections] using h
  | cons p rest ih =>
    intro i acc h
    obtain ⟨⟨s, e⟩, en⟩ := p
    rcases hd : disambiguate acc (baseLabelOf i n (e - s) en median std) with ⟨lab, acc'⟩
    have hstep := labelInv_step acc (baseLabelOf i n (e - s) en median std)
      (baseLabelOf_mem_vocab i n (e - s) en median std) hd h
    simp only [buildSections, hd]
    apply ih
    simp only [List.map_append]
    exact hstep

/-- C8: for every Arrangement produced by the structure analysis, no two
Sections share a label (proved without even the claim's two-section
restriction).  The section-building loop maintains the invariant that each
base label's family of labels is exactly `base` or `base_1 ... base_n`: when
a later span receives an already-used base label, the new span gets the next
`_k` suffix and the span still labelled exactly `base` is retroactively
renamed to `base_1`, so the numbered labels stay pairwise distinct. -/
theorem c8_labels_nodup (sqrtQ : ℚ → ℚ) (boundary_times beat_times : List ℚ)
    (duration : ℚ) (rms : List ℚ) (sr : ℕ) :
    ((detectSections sqrtQ boundary_times beat_times duration rms sr).map
      Section.label).Nodup := by
  rw [detectSections]
  split
  · simp
  · exact labelInv_nodup (buildSections_inv _ _ _ _ 0 [] labelInv_nil)

end Waive
